/- Verification of the mdump search indexing subsystem
   (src/server/src/services/searchService.ts and src/server/src/utils/paths.ts).

   The embedding models:
   - strings and path helpers used by the service (Node's basename/extname on
     '/'-separated relative paths, JS trim / startsWith / the scope-trimming
     regex replace);
   - the filesystem sandbox as a finite tree of named entries, where a file is
     either readable (with its content) or present-but-unreadable (readFile
     rejects, matching the try/catch in the source);
   - the MiniSearch index.  MiniSearch is a third-party library whose code is
     not part of this repository, so its behaviour (tokenization, per-field
     boosts from SEARCH_BOOST, prefix and bounded-fuzzy matching, descending
     score order, autoSuggest vocabulary) is modelled from the spec, sections
     3, 4.2 and 4.3;
   - the module-level mutable state of searchService (searchIndex,
     indexedPaths, and the snapshot file SEARCH_INDEX_FILE) as an explicit
     state record, with buildIndex / indexFile / removeFromIndex / saveIndex /
     search / getSuggestions as state-passing functions translated line by
     line from the source. -/
import Mathlib

namespace Mdump

/-! ## Strings and paths -/

/-- JS `String.prototype.trim()`: strip leading and trailing whitespace. -/
def jsTrim (s : String) : String :=
  String.mk (((s.data.dropWhile Char.isWhitespace).reverse.dropWhile Char.isWhitespace).reverse)

/-- JS `String.prototype.toLowerCase()` (ASCII model). -/
def lowerStr (s : String) : String := String.mk (s.data.map Char.toLower)

/-- JS `String.prototype.startsWith(pre)` on `s`. -/
def strStartsWith (s pre : String) : Bool := pre.data.isPrefixOf s.data

/-- Split a character list on `'/'` (used to resolve relative paths). -/
def splitC : List Char → List (List Char)
  | [] => [[]]
  | c :: cs =>
    if c = '/' then [] :: splitC cs
    else
      match splitC cs with
      | [] => [[c]]
      | g :: gs => (c :: g) :: gs

/-- Path segments of a relative path. -/
def splitSlash (s : String) : List String := (splitC s.data).map (fun l => String.mk l)

/-- `join(relativePath, entry.name)` as used in indexDirectory: the code passes
`entryPath = relativePath ? join(relativePath, entry.name) : entry.name`. -/
def joinRel (base name : String) : String := if base = "" then name else base ++ "/" ++ name

/-- Node `basename`: the last '/'-separated segment. -/
def basenameStr (p : String) : String := (splitSlash p).getLastD ""

/-- Split a character list at its last `'.'`: returns the part before it and
the part from the dot on.  `none` when there is no dot. -/
def lastDotSplit : List Char → Option (List Char × List Char)
  | [] => none
  | c :: cs =>
    match lastDotSplit cs with
    | some (pre, ext) => some (c :: pre, ext)
    | none => if c = '.' then some ([], '.' :: cs) else none

/-- Node `extname`: extension of the basename, empty when there is no dot or
the only dot is the leading character. -/
def extname (p : String) : String :=
  match lastDotSplit (basenameStr p).data with
  | none => ""
  | some (pre, ext) => if pre.isEmpty then "" else String.mk ext

/-- `basename(relativePath, extname(relativePath))` as used to derive titles. -/
def basenameWithoutExt (p : String) : String :=
  match lastDotSplit (basenameStr p).data with
  | none => basenameStr p
  | some (pre, _) => if pre.isEmpty then basenameStr p else String.mk pre

/-- `isMarkdownFile` from src/server/src/utils/paths.ts:
`extname(filePath).toLowerCase() === MARKDOWN_EXTENSION` with
`MARKDOWN_EXTENSION = '.md'`. -/
def isMarkdownFile (p : String) : Bool := lowerStr (extname p) == ".md"

/-- The scope trimming in search: `scope.replace(/^\/+|\/+$/g, '')`. -/
def stripSlashes (s : String) : String :=
  String.mk (((s.data.dropWhile (fun c => c == '/')).reverse.dropWhile (fun c => c == '/')).reverse)

/-! ## Filesystem model

The document root (NOTES_DIR) is a finite tree of named entries.  A file
carries `some content` when readable and `none` when it exists but `readFile`
fails (permissions, or the entry is something unreadable such as a directory
masquerading under the checked name) — the source guards exactly these two
layers with `existsSync` and a try/catch around `readFile`. -/

inductive FsEntries where
  | nil
  | consFile (name : String) (content : Option String) (rest : FsEntries)
  | consDir (name : String) (sub : FsEntries) (rest : FsEntries)

/-- View of a resolved directory entry. -/
inductive FsNode where
  | file (content : Option String)
  | dir (entries : FsEntries)

/-- Look up a directory entry by name (first match, as `readdir` names are
unique in a real directory). -/
def findEntry : FsEntries → String → Option FsNode
  | .nil, _ => none
  | .consFile m c rest, n => if m = n then some (.file c) else findEntry rest n
  | .consDir m sub rest, n => if m = n then some (.dir sub) else findEntry rest n

/-- Resolve a list of path segments against a directory. -/
def resolveSegs : FsEntries → List String → Option FsNode
  | es, [] => some (.dir es)
  | es, seg :: rest =>
    match findEntry es seg with
    | some (.file c) => if rest.isEmpty then some (.file c) else none
    | some (.dir sub) => resolveSegs sub rest
    | none => none

/-- The segment list of a relative path (the empty path is the root). -/
def segsOf (p : String) : List String := if p = "" then [] else splitSlash p

/-- Resolve a relative path under the document root (`sandboxPath` target). -/
def resolvePath (fs : FsEntries) (p : String) : Option FsNode :=
  resolveSegs fs (segsOf p)

/-- `existsSync(sandboxPath(p))`. -/
def existsSyncFs (fs : FsEntries) (p : String) : Bool := (resolvePath fs p).isSome

/-- `readFile(sandboxPath(p))`: succeeds exactly on readable files. -/
def readFileFs (fs : FsEntries) (p : String) : Option String :=
  match resolvePath fs p with
  | some (.file (some c)) => some c
  | _ => none

/-- A well-formed directory-entry name: nonempty and free of the separator. -/
def goodName (n : String) : Bool := !(n == "") && !(n.data.contains '/')

/-- Does the entry list contain an entry with this name? -/
def keysContain : FsEntries → String → Bool
  | .nil, _ => false
  | .consFile m _ rest, n => m == n || keysContain rest n
  | .consDir m _ rest, n => m == n || keysContain rest n

/-- Well-formedness of a directory listing: names are good and pairwise
distinct, recursively (true of any real directory). -/
def wfEntries : FsEntries → Bool
  | .nil => true
  | .consFile n _ rest => goodName n && !(keysContain rest n) && wfEntries rest
  | .consDir n sub rest => goodName n && !(keysContain rest n) && wfEntries sub && wfEntries rest

/-- Membership of a named entry in a directory listing. -/
inductive EntryIn : String → FsNode → FsEntries → Prop where
  | fileHead (n : String) (c : Option String) (rest : FsEntries) :
      EntryIn n (.file c) (.consFile n c rest)
  | dirHead (n : String) (sub rest : FsEntries) :
      EntryIn n (.dir sub) (.consDir n sub rest)
  | fileTail (n : String) (node : FsNode) (m : String) (c : Option String) (rest : FsEntries) :
      EntryIn n node rest → EntryIn n node (.consFile m c rest)
  | dirTail (n : String) (node : FsNode) (m : String) (sub rest : FsEntries) :
      EntryIn n node rest → EntryIn n node (.consDir m sub rest)

/-- A path the fallback traversal must index: it carries the markdown
extension and resolves to a readable file. -/
def eligiblePath (fs : FsEntries) (p : String) : Bool :=
  isMarkdownFile p
    && (match resolvePath fs p with
        | some (.file (some _)) => true
        | _ => false)

/-- The paths of the eligible documents under a directory listing, skipping
hidden names: the declarative reading of the traversal described in the spec,
section 4.1. -/
def collectEntries : FsEntries → String → List String
  | .nil, _ => []
  | .consFile name c rest, basePath =>
    (if strStartsWith name "." then []
     else if isMarkdownFile name && c.isSome then [joinRel basePath name] else [])
      ++ collectEntries rest basePath
  | .consDir name sub rest, basePath =>
    (if strStartsWith name "." then [] else collectEntries sub (joinRel basePath name))
      ++ collectEntries rest basePath
termination_by structural es => es

/-- Per-entry resolution facts for a directory listing at a base path: every
entry's name is good, joins to a path resolving to that entry's node, and
subdirectory listings are well-formed. -/
def EntriesResolved (fs : FsEntries) (base : String) (es : FsEntries) : Prop :=
  ∀ n node, EntryIn n node es →
    goodName n = true ∧ resolvePath fs (joinRel base n) = some node
      ∧ ∀ sub, node = FsNode.dir sub → wfEntries sub = true

/-! ## The index model

MiniSearch is an external dependency (not part of this repository's sources).
Modelled from the spec: the index aggregate is determined by the set of
currently indexed documents (spec section 3: one IndexedDocument per id, whole
document replaced on update); `add` throws on a duplicate id and `remove`
throws when the id is absent (spec: removal/no-op contracts of section 4.1 and
the try/catch guards in the source); search tokenizes the fields title,
content, path (SEARCH_FIELDS), scores matches with the per-field boosts
SEARCH_BOOST = title 2, content 1, path 0.5, supports prefix and bounded
fuzzy matching, and returns results in descending score order (spec section
4.3; tie order is implementation-defined, modelled as stable insertion order);
autoSuggest returns vocabulary terms starting with the prefix (spec section
4.3).  Match-snippet hydration (`matches`) is not modelled; no claim concerns
it. -/

structure IndexedDocument where
  id : String
  path : String
  title : String
  content : String
deriving DecidableEq

structure MiniSearchIndex where
  docs : List IndexedDocument
deriving DecidableEq

def MiniSearchIndex.empty : MiniSearchIndex := ⟨[]⟩

def MiniSearchIndex.idsOf (idx : MiniSearchIndex) : List String := idx.docs.map (fun d => d.id)

def MiniSearchIndex.hasDoc (idx : MiniSearchIndex) (i : String) : Bool :=
  idx.docs.any (fun d => d.id == i)

/-- `MiniSearch.add`: `none` models the duplicate-id exception. -/
def MiniSearchIndex.add (idx : MiniSearchIndex) (d : IndexedDocument) : Option MiniSearchIndex :=
  if idx.hasDoc d.id then none else some ⟨idx.docs ++ [d]⟩

/-- `MiniSearch.remove({id})`: `none` models the not-in-index exception. -/
def MiniSearchIndex.remove (idx : MiniSearchIndex) (i : String) : Option MiniSearchIndex :=
  if idx.hasDoc i then some ⟨idx.docs.filter (fun d => !(d.id == i))⟩ else none

/-- Default MiniSearch tokenizer model: split on non-alphanumeric characters,
lowercasing terms (the default processTerm). -/
def tokenizeAux : List Char → List Char → List String
  | [], acc => if acc.isEmpty then [] else [String.mk acc.reverse]
  | c :: cs, acc =>
    if c.isAlphanum then tokenizeAux cs (c.toLower :: acc)
    else if acc.isEmpty then tokenizeAux cs [] else String.mk acc.reverse :: tokenizeAux cs []

def tokenize (s : String) : List String := tokenizeAux s.data []

/-- One row-update step of the Levenshtein dynamic program: walk the second
word and the previous row together, carrying the cell to the left. -/
def edStep (x : Char) : List Char → List Nat → Nat → List Nat
  | y :: ys, pj :: pj1 :: prest, left =>
    let cell := min (left + 1) (min (pj1 + 1) (if x = y then pj else pj + 1))
    cell :: edStep x ys (pj1 :: prest) cell
  | _, _, _ => []

/-- Levenshtein edit distance (row-by-row dynamic program, structurally
recursive), for the bounded fuzzy matching of the query options
(`fuzzy: 0.2`). -/
def editDistance (a b : List Char) : Nat :=
  (a.foldl (fun prev x =>
      let first := (prev.headD 0) + 1
      first :: edStep x b prev first)
    (List.range (b.length + 1))).getLastD 0

/-- SEARCH_BOOST from src/server/src/config/constants (via
src/unnamed/part_000) is `title 2, content 1, path 0.5`.  Scores are
represented on a doubled integer scale (4, 2, 1) so that all score
arithmetic stays in `Nat`; only relative order of scores is observable. -/
def searchBoostTitle : Nat := 4
def searchBoostContent : Nat := 2
def searchBoostPath : Nat := 1

def SEARCH_DEFAULT_LIMIT : Nat := 50

/-- Weight of a query term against one indexed token, in fortieths: exact
match 40 (= 1), strict prefix match 15 (= 0.375), within the fuzzy
edit-distance bound 18 (= 0.45), else no match (modelled from the spec's
prefix/fuzzy description and MiniSearch's default relative weighting
exact > fuzzy > prefix). -/
def matchWeight (t tok : String) : Nat :=
  if tok = t then 40
  else if strStartsWith tok t then 15
  else if editDistance t.data tok.data ≤ t.data.length / 5 then 18
  else 0

/-- Best match weight of a term over a token list. -/
def bestWeight (t : String) (toks : List String) : Nat :=
  toks.foldr (fun tok acc => max (matchWeight t tok) acc) 0

/-- Score contribution of one query term against one document: boosted sum
over the fields title, content, path (SEARCH_FIELDS, SEARCH_BOOST). -/
def termScore (t : String) (d : IndexedDocument) : Nat :=
  searchBoostTitle * bestWeight t (tokenize d.title)
    + searchBoostContent * bestWeight t (tokenize d.content)
    + searchBoostPath * bestWeight t (tokenize d.path)

/-- Total score of a document for a tokenized query. -/
def scoreDoc (qts : List String) (d : IndexedDocument) : Nat :=
  (qts.map (fun t => termScore t d)).sum

/-- Stable insertion keeping descending score order: a new result goes after
every already-placed result of greater-or-equal score. -/
def insertResult (r : IndexedDocument × Nat) :
    List (IndexedDocument × Nat) → List (IndexedDocument × Nat)
  | [] => [r]
  | x :: xs => if x.2 < r.2 then r :: x :: xs else x :: insertResult r xs

/-- Sort scored documents by descending score (stable). -/
def sortByScore (l : List (IndexedDocument × Nat)) : List (IndexedDocument × Nat) :=
  l.foldl (fun acc r => insertResult r acc) []

/-- `MiniSearch.search`: score every document, keep those matching at least
one query term, order by descending score. -/
def rawSearch (idx : MiniSearchIndex) (query : String) : List (IndexedDocument × Nat) :=
  sortByScore ((idx.docs.map (fun d => (d, scoreDoc (tokenize query) d))).filter (fun r => 0 < r.2))

/-- All tokens of a document over the indexed fields. -/
def docTokens (d : IndexedDocument) : List String :=
  tokenize d.title ++ tokenize d.content ++ tokenize d.path

/-- The index vocabulary. -/
def vocabulary (idx : MiniSearchIndex) : List String :=
  (idx.docs.flatMap docTokens).dedup

/-- `MiniSearch.autoSuggest(q, prefix only, no fuzzy)`: vocabulary terms the
lowercased input is a prefix of (spec section 4.3). -/
def autoSuggest (idx : MiniSearchIndex) (pre : String) : List String :=
  (vocabulary idx).filter (fun t => strStartsWith t (lowerStr pre))

/-! ## The searchService state and operations -/

/-- The persisted snapshot file: either JSON that parses and loads
(`{data, paths}`), or unparseable content. -/
inductive SnapshotFile where
  | valid (data : MiniSearchIndex) (paths : List String)
  | corrupt
deriving DecidableEq

/-- The module-level state of searchService: the `searchIndex` singleton, the
`indexedPaths` set (as its insertion-ordered list of distinct members), and
the contents of SEARCH_INDEX_FILE (`none` when the file does not exist). -/
structure ServerState where
  searchIndex : MiniSearchIndex
  indexedPaths : List String
  snapshotFile : Option SnapshotFile
deriving DecidableEq

/-- JS `Set.add`: no change when present, else appended. -/
def addPath (l : List String) (p : String) : List String :=
  if l.contains p then l else l ++ [p]

/-- JS `Set.delete`. -/
def deletePath (l : List String) (p : String) : List String :=
  l.filter (fun q => !(q == p))

/-- `indexFile` (searchService.ts lines 107-141): bail out unless the path
exists and is markdown; drop any previously tracked entry (the
`index.remove` exception is swallowed, the `indexedPaths.delete` runs either
way); then read the file and add the document — a failing read, or an
`index.add` exception, is caught and leaves the state as it stands. -/
def indexFile (fs : FsEntries) (st : ServerState) (relativePath : String) : ServerState :=
  if !(existsSyncFs fs relativePath) || !(isMarkdownFile relativePath) then st
  else
    let st1 : ServerState :=
      if st.indexedPaths.contains relativePath then
        ⟨(match st.searchIndex.remove relativePath with
          | some idx => idx
          | none => st.searchIndex),
         deletePath st.indexedPaths relativePath, st.snapshotFile⟩
      else st
    match readFileFs fs relativePath with
    | some content =>
      let d : IndexedDocument :=
        ⟨relativePath, relativePath, basenameWithoutExt relativePath, content⟩
      match st1.searchIndex.add d with
      | some idx2 => ⟨idx2, addPath st1.indexedPaths relativePath, st1.snapshotFile⟩
      | none => st1
    | none => st1

/-- `removeFromIndex` (lines 146-157): both the `index.remove` and the
`indexedPaths.delete` sit inside the try, so a remove exception skips the
delete. -/
def removeFromIndex (st : ServerState) (relativePath : String) : ServerState :=
  if st.indexedPaths.contains relativePath then
    match st.searchIndex.remove relativePath with
    | some idx => ⟨idx, deletePath st.indexedPaths relativePath, st.snapshotFile⟩
    | none => st
  else st

/-- `updateIndex` (lines 162-164). -/
def updateIndex (fs : FsEntries) (st : ServerState) (relativePath : String) : ServerState :=
  indexFile fs st relativePath

/-- `saveIndex` (lines 169-182): serialize the index and the tracked paths to
the snapshot file (serialization of the model always succeeds; the catch in
the source only swallows I/O write failures). -/
def saveIndex (st : ServerState) : ServerState :=
  ⟨st.searchIndex, st.indexedPaths, some (.valid st.searchIndex st.indexedPaths)⟩

/-- `indexDirectory` (lines 79-102) over a directory listing: skip hidden
entries (leading '.'), recurse into subdirectories, hand markdown-named files
to `indexFile` (which re-resolves the path itself, as the source does). -/
def indexEntries (fs : FsEntries) : FsEntries → String → ServerState → ServerState
  | .nil, _, st => st
  | .consFile name _ rest, basePath, st =>
    let st1 :=
      if strStartsWith name "." then st
      else if isMarkdownFile name then indexFile fs st (joinRel basePath name) else st
    indexEntries fs rest basePath st1
  | .consDir name sub rest, basePath, st =>
    let st1 :=
      if strStartsWith name "." then st
      else indexEntries fs sub (joinRel basePath name) st
    indexEntries fs rest basePath st1
termination_by structural es => es

/-- The `index.removeAll(); indexedPaths.clear()` prologue of buildIndex. -/
def clearState (st : ServerState) : ServerState := ⟨.empty, [], st.snapshotFile⟩

/-- `buildIndex` (lines 48-74): clear, then load the snapshot when it exists
and parses (trusting it fully and returning); otherwise traverse the document
root and persist the result. -/
def buildIndex (fs : FsEntries) (st : ServerState) : ServerState :=
  match st.snapshotFile with
  | some (.valid d p) => ⟨d, p, st.snapshotFile⟩
  | some .corrupt => saveIndex (indexEntries fs fs "" (clearState st))
  | none => saveIndex (indexEntries fs fs "" (clearState st))

/-- A search result as hydrated by `search` (lines 209-228); the `matches`
snippets are not modelled. -/
structure SearchResult where
  path : String
  name : String
  score : Nat
deriving DecidableEq

/-- `search` (lines 187-229): empty or whitespace-only query short-circuits
to `[]`; a truthy scope filters ids by raw string prefix of the
slash-trimmed scope; the limit is applied after the filter. -/
def search (st : ServerState) (query : String) (scope : Option String)
    (limit : Nat := SEARCH_DEFAULT_LIMIT) : List SearchResult :=
  if (jsTrim query).data.length = 0 then []
  else
    let results := rawSearch st.searchIndex query
    let results :=
      match scope with
      | some sc =>
        if sc = "" then results
        else results.filter (fun r => strStartsWith r.1.id (stripSlashes sc))
      | none => results
    let results := results.take limit
    results.map (fun r => ⟨r.1.id, basenameWithoutExt r.1.id, r.2⟩)

/-- `getSuggestions` (lines 234-244). -/
def getSuggestions (st : ServerState) (pre : String) (limit : Nat := 10) : List String :=
  if (jsTrim pre).data.length = 0 then []
  else (autoSuggest st.searchIndex pre).take limit

/-! ## Operation sequences (for the consistency invariant) -/

inductive Op where
  | build
  | indexOp (p : String)
  | removeOp (p : String)
  | save

def applyOp (fs : FsEntries) (st : ServerState) : Op → ServerState
  | .build => buildIndex fs st
  | .indexOp p => indexFile fs st p
  | .removeOp p => removeFromIndex st p
  | .save => saveIndex st

def runOps (fs : FsEntries) (st : ServerState) (ops : List Op) : ServerState :=
  ops.foldl (applyOp fs) st

/-! ## The index/tracked-paths consistency invariant (spec section 3) -/

/-- Equality of two lists viewed as sets. -/
def sameSet (a b : List String) : Bool :=
  a.all (fun x => b.contains x) && b.all (fun x => a.contains x)

/-- A snapshot file is consistent when, if it parses, its serialized index
and its paths array describe the same id set (always true of files written
by `saveIndex`; absent or unparseable files are trivially fine). -/
def snapOk : Option SnapshotFile → Bool
  | some (.valid d p) => sameSet d.idsOf p
  | _ => true

/-- The consistency invariant: the ids in the index are exactly the tracked
paths, and the on-disk snapshot (the only other place state is read from)
is itself consistent. -/
def invariant (st : ServerState) : Prop :=
  sameSet st.searchIndex.idsOf st.indexedPaths = true ∧ snapOk st.snapshotFile = true

/-! ## Concrete fixtures for witnesses and counterexamples -/

/-- The spec's concrete scenario, section 8.7: `a.md` and `b/c.md`, plus a
hidden folder and a non-markdown file that must be skipped. -/
def fsW : FsEntries :=
  .consFile "a.md" (some "roadmap and milestones")
    (.consDir "b" (.consFile "c.md" (some "roadmap changes for Q3") .nil)
      (.consDir ".hidden" .nil
        (.consFile "notes.txt" (some "roadmap") .nil)))

/-- The virgin module state: no index yet, nothing tracked, no snapshot. -/
def stEmpty : ServerState := ⟨.empty, [], none⟩

/-- The warm state after start-up on `fsW`. -/
def stW : ServerState := buildIndex fsW stEmpty

/-- A filesystem whose only entry exists but cannot be read. -/
def fsC6 : FsEntries := .consFile "u.md" none .nil

/-- A state that tracks `u.md` (as after indexing it while it was readable). -/
def stC6 : ServerState := ⟨⟨[⟨"u.md", "u.md", "u", "old text"⟩]⟩, ["u.md"], none⟩

/-- Documents under `b2/` and a top-level `bar.md`: paths that begin with the
character `b` without `b` being a path component. -/
def fsC10 : FsEntries :=
  .consFile "bar.md" (some "roadmap")
    (.consDir "b2" (.consFile "x.md" (some "roadmap") .nil) .nil)

def stC10 : ServerState := buildIndex fsC10 stEmpty

/-- Fifty out-of-scope documents that strongly match the term plus one weakly
matching document under `b/`: enough raw hits that the default limit truncates
the unscoped result list before the in-scope document. -/
def c4Docs : List IndexedDocument :=
  (List.range 50).map (fun n =>
    let p := "a" ++ toString n ++ "/term.md"
    ⟨p, p, "term", "term"⟩) ++ [⟨"b/c.md", "b/c.md", "c", "terms"⟩]

def stC4 : ServerState := ⟨⟨c4Docs⟩, c4Docs.map (fun d => d.id), none⟩

/-- A state whose snapshot file exists but does not parse, with stale
in-memory contents that buildIndex must clear. -/
def stC8 : ServerState :=
  ⟨⟨[⟨"junk.md", "junk.md", "junk", "stale"⟩]⟩, ["junk.md"], some .corrupt⟩

/-- A state with a parseable snapshot (contents arbitrary). -/
def stC8v : ServerState := ⟨.empty, [], some (.valid ⟨[]⟩ ["x.md"])⟩

/-- Two documents: the query term `plan` occurs only in the second one's
title, and only in the first one's body content (listed first so that
insertion order cannot explain the ranking). -/
def stC7 : ServerState :=
  ⟨⟨[⟨"notes.md", "notes.md", "notes", "plan text"⟩,
     ⟨"plan.md", "plan.md", "plan", "other words"⟩]⟩,
   ["notes.md", "plan.md"], none⟩

/-- A sequence exercising every operation, including re-index, removal of an
absent path, snapshot save, rebuild from the saved snapshot, and an index
call on a missing path. -/
def opsC2 : List Op :=
  [.build, .indexOp "a.md", .indexOp "a.md", .removeOp "b/c.md", .removeOp "zz.md",
   .save, .build, .indexOp "nope.md", .indexOp "notes.txt", .save]

/-! ## Helper lemmas (shared) -/

theorem contains_false_iff (l : List String) (p : String) : l.contains p = false ↔ p ∉ l := by
  rw [← Bool.not_eq_true]
  simp

theorem deletePath_self_not_mem (l : List String) (p : String) : p ∉ deletePath l p := by
  simp [deletePath]

theorem contains_deletePath (l : List String) (p : String) :
    (deletePath l p).contains p = false :=
  (contains_false_iff _ _).mpr (deletePath_self_not_mem l p)

theorem deletePath_eq_self (l : List String) (p : String) (h : p ∉ l) : deletePath l p = l := by
  unfold deletePath
  rw [List.filter_eq_self]
  intro a ha
  simp
  intro hc
  exact h (hc ▸ ha)

theorem deletePath_append_self (l : List String) (p : String) :
    deletePath (l ++ [p]) p = deletePath l p := by
  unfold deletePath
  rw [List.filter_append]
  simp [List.filter_cons, List.filter_nil]

theorem docsFilter_eq_self (docs : List IndexedDocument) (p : String)
    (h : docs.any (fun d => d.id == p) = false) :
    docs.filter (fun d => !(d.id == p)) = docs := by
  rw [List.filter_eq_self]
  intro a ha
  cases hid : (a.id == p) with
  | false => simp
  | true =>
    exfalso
    have hc : docs.any (fun d => d.id == p) = true := List.any_eq_true.mpr ⟨a, ha, hid⟩
    exact absurd hc (by simp [h])

theorem dropWhile_ws_nil (l : List Char) (h : ∀ c ∈ l, c.isWhitespace) :
    l.dropWhile Char.isWhitespace = [] := by
  induction l with
  | nil => rfl
  | cons c cs ih =>
    rw [List.dropWhile_cons]
    simp [h c (by simp)]
    exact fun x hx => h x (by simp [hx])

theorem jsTrim_of_whitespace (q : String) (h : ∀ c ∈ q.data, c.isWhitespace) :
    (jsTrim q).data.length = 0 := by
  unfold jsTrim
  rw [dropWhile_ws_nil q.data h]
  simp

theorem strStartsWith_empty (x : String) : strStartsWith x "" = true := by
  simp [strStartsWith]

theorem stripSlashes_empty : stripSlashes "" = "" := rfl

/-- `indexFile` bails out when the path does not exist or is not markdown. -/
theorem indexFile_not_eligible (fs : FsEntries) (st : ServerState) (p : String)
    (h : existsSyncFs fs p = false ∨ isMarkdownFile p = false) :
    indexFile fs st p = st := by
  unfold indexFile
  rcases h with h | h <;> simp [h]

theorem contains_true_iff (l : List String) (p : String) : l.contains p = true ↔ p ∈ l := by
  simp

theorem contains_append_self (l : List String) (p : String) : (l ++ [p]).contains p = true := by
  simp

theorem hasDoc_filter_self (docs : List IndexedDocument) (p : String) :
    (⟨docs.filter (fun d => !(d.id == p))⟩ : MiniSearchIndex).hasDoc p = false := by
  unfold MiniSearchIndex.hasDoc
  simp

theorem hasDoc_after_removeMatch (idx : MiniSearchIndex) (p : String) :
    (match idx.remove p with | some i => i | none => idx).hasDoc p = false := by
  unfold MiniSearchIndex.remove
  by_cases h : idx.hasDoc p = true
  · simp [h, hasDoc_filter_self]
  · simp only [Bool.not_eq_true] at h
    simp [h]

theorem remove_append_self (docs : List IndexedDocument) (d : IndexedDocument)
    (hdoc : (⟨docs⟩ : MiniSearchIndex).hasDoc d.id = false) :
    (⟨docs ++ [d]⟩ : MiniSearchIndex).remove d.id = some ⟨docs⟩ := by
  unfold MiniSearchIndex.remove
  have h1 : (⟨docs ++ [d]⟩ : MiniSearchIndex).hasDoc d.id = true := by
    unfold MiniSearchIndex.hasDoc
    simp
  rw [h1]
  unfold MiniSearchIndex.hasDoc at hdoc
  simp [List.filter_append, docsFilter_eq_self docs d.id hdoc, List.filter_cons]

/-- Eligible path, previously tracked, read fails: the stale entry is dropped. -/
theorem indexFile_tracked_read_none (fs : FsEntries) (st : ServerState) (p : String)
    (hex : existsSyncFs fs p = true) (hmd : isMarkdownFile p = true)
    (ht : st.indexedPaths.contains p = true) (hrd : readFileFs fs p = none) :
    indexFile fs st p = ⟨(match st.searchIndex.remove p with
      | some idx => idx | none => st.searchIndex), deletePath st.indexedPaths p,
      st.snapshotFile⟩ := by
  have hm := (contains_true_iff _ _).mp ht
  simp [indexFile, hex, hmd, hm, hrd]

/-- Eligible path, untracked, read fails: no change. -/
theorem indexFile_untracked_read_none (fs : FsEntries) (st : ServerState) (p : String)
    (hex : existsSyncFs fs p = true) (hmd : isMarkdownFile p = true)
    (ht : st.indexedPaths.contains p = false) (hrd : readFileFs fs p = none) :
    indexFile fs st p = st := by
  have hm := (contains_false_iff _ _).mp ht
  simp [indexFile, hex, hmd, hm, hrd]

/-- Eligible path, untracked, read succeeds, id free: document appended. -/
theorem indexFile_untracked_read_some (fs : FsEntries) (st : ServerState) (p c : String)
    (hex : existsSyncFs fs p = true) (hmd : isMarkdownFile p = true)
    (ht : st.indexedPaths.contains p = false) (hrd : readFileFs fs p = some c)
    (hdoc : st.searchIndex.hasDoc p = false) :
    indexFile fs st p = ⟨⟨st.searchIndex.docs ++ [⟨p, p, basenameWithoutExt p, c⟩]⟩,
      st.indexedPaths ++ [p], st.snapshotFile⟩ := by
  have hm := (contains_false_iff _ _).mp ht
  simp [indexFile, hex, hmd, hm, hrd, MiniSearchIndex.add, hdoc, addPath, ht]

/-- Eligible path, untracked but the id is already in the index (divergent
state): `index.add` throws, the catch leaves everything unchanged. -/
theorem indexFile_untracked_dup (fs : FsEntries) (st : ServerState) (p c : String)
    (hex : existsSyncFs fs p = true) (hmd : isMarkdownFile p = true)
    (ht : st.indexedPaths.contains p = false) (hrd : readFileFs fs p = some c)
    (hdoc : st.searchIndex.hasDoc p = true) :
    indexFile fs st p = st := by
  have hm := (contains_false_iff _ _).mp ht
  simp [indexFile, hex, hmd, hm, hrd, MiniSearchIndex.add, hdoc]

/-- Eligible path, tracked, read succeeds: remove-then-add. -/
theorem indexFile_tracked_read_some (fs : FsEntries) (st : ServerState) (p c : String)
    (hex : existsSyncFs fs p = true) (hmd : isMarkdownFile p = true)
    (ht : st.indexedPaths.contains p = true) (hrd : readFileFs fs p = some c) :
    indexFile fs st p = ⟨⟨(match st.searchIndex.remove p with
        | some idx => idx | none => st.searchIndex).docs
        ++ [⟨p, p, basenameWithoutExt p, c⟩]⟩,
      deletePath st.indexedPaths p ++ [p], st.snapshotFile⟩ := by
  have hm := (contains_true_iff _ _).mp ht
  have h1 := hasDoc_after_removeMatch st.searchIndex p
  simp [indexFile, hex, hmd, hm, hrd, MiniSearchIndex.add, h1, addPath,
    contains_deletePath, deletePath_self_not_mem]

theorem deletePath_idem (l : List String) (p : String) :
    deletePath (deletePath l p) p = deletePath l p :=
  deletePath_eq_self _ _ (deletePath_self_not_mem l p)

/-- Re-indexing an unchanged path is idempotent on the whole service state. -/
theorem indexFile_idem (fs : FsEntries) (st : ServerState) (p : String) :
    indexFile fs (indexFile fs st p) p = indexFile fs st p := by
  by_cases hex : existsSyncFs fs p = true
  case neg =>
    have hx : existsSyncFs fs p = false := by simpa using hex
    rw [indexFile_not_eligible fs st p (Or.inl hx)]
    exact indexFile_not_eligible fs st p (Or.inl hx)
  by_cases hmd : isMarkdownFile p = true
  case neg =>
    have hx : isMarkdownFile p = false := by simpa using hmd
    rw [indexFile_not_eligible fs st p (Or.inr hx)]
    exact indexFile_not_eligible fs st p (Or.inr hx)
  cases ht : st.indexedPaths.contains p with
  | false =>
    cases hrd : readFileFs fs p with
    | none =>
      rw [indexFile_untracked_read_none fs st p hex hmd ht hrd]
      exact indexFile_untracked_read_none fs st p hex hmd ht hrd
    | some c =>
      cases hdoc : st.searchIndex.hasDoc p with
      | true =>
        rw [indexFile_untracked_dup fs st p c hex hmd ht hrd hdoc]
        exact indexFile_untracked_dup fs st p c hex hmd ht hrd hdoc
      | false =>
        rw [indexFile_untracked_read_some fs st p c hex hmd ht hrd hdoc]
        rw [indexFile_tracked_read_some fs _ p c hex hmd (contains_append_self _ _) hrd]
        rw [remove_append_self st.searchIndex.docs _ hdoc]
        rw [deletePath_append_self, deletePath_eq_self _ _ ((contains_false_iff _ _).mp ht)]
  | true =>
    cases hrd : readFileFs fs p with
    | none =>
      rw [indexFile_tracked_read_none fs st p hex hmd ht hrd]
      exact indexFile_untracked_read_none fs _ p hex hmd (contains_deletePath _ _) hrd
    | some c =>
      rw [indexFile_tracked_read_some fs st p c hex hmd ht hrd]
      rw [indexFile_tracked_read_some fs _ p c hex hmd (contains_append_self _ _) hrd]
      rw [remove_append_self _ _ (hasDoc_after_removeMatch st.searchIndex p)]
      rw [deletePath_append_self, deletePath_idem]

/-! ## Claims -/

/-- C1: Persistence round-trip — after `buildIndex()` then `saveIndex()`, a
simulated restart's `buildIndex()` (loading the saved snapshot) yields the
same tracked-paths set and the same `search` results for every query. -/
theorem c1_persistence_round_trip (fs : FsEntries) (st : ServerState) :
    (buildIndex fs (saveIndex (buildIndex fs st))).indexedPaths
        = (saveIndex (buildIndex fs st)).indexedPaths
      ∧ ∀ q sc lim, search (buildIndex fs (saveIndex (buildIndex fs st))) q sc lim
        = search (saveIndex (buildIndex fs st)) q sc lim := by
  have h : buildIndex fs (saveIndex (buildIndex fs st)) = saveIndex (buildIndex fs st) := rfl
  exact ⟨by rw [h], fun q sc lim => by rw [h]⟩

/-- C3: Idempotent re-index — with the filesystem (hence the content of `p`)
unchanged between the calls, `indexFile(p)` twice equals `indexFile(p)` once,
on the whole state and hence on every query's results: no duplicate postings
and no double-counted scores. -/
theorem c3_idempotent_reindex (fs : FsEntries) (st : ServerState) (p : String) :
    indexFile fs (indexFile fs st p) p = indexFile fs st p ∧
    ∀ q sc lim, search (indexFile fs (indexFile fs st p) p) q sc lim
      = search (indexFile fs st p) q sc lim := by
  have h := indexFile_idem fs st p
  exact ⟨h, fun q sc lim => by rw [h]⟩

/-- C6 counterexample: `u.md` exists but is not readable, and is tracked; the
claim says `indexFile("u.md")` is a no-op, but the call removes the tracked
entry (lines 115-123 run before the failing read). -/
theorem c6_counterexample :
    readFileFs fsC6 "u.md" = none
      ∧ (indexFile fsC6 stC6 "u.md").indexedPaths ≠ stC6.indexedPaths := by
  constructor
  · rfl
  · decide

/-- C6 (amended): `indexFile(p)` is a no-op when `p` does not exist or is not
a markdown file; when `p` exists as markdown but reading fails, the call
either leaves the state unchanged (untracked `p`) or removes `p`'s tracked
entry without adding a replacement. -/
theorem c6_amended_no_op (fs : FsEntries) (st : ServerState) (p : String) :
    (existsSyncFs fs p = false ∨ isMarkdownFile p = false → indexFile fs st p = st)
      ∧ (readFileFs fs p = none →
          (indexFile fs st p).indexedPaths = deletePath st.indexedPaths p
            ∨ indexFile fs st p = st) := by
  constructor
  · exact indexFile_not_eligible fs st p
  · intro hrd
    by_cases hex : existsSyncFs fs p = true
    · by_cases hmd : isMarkdownFile p = true
      · cases ht : st.indexedPaths.contains p with
        | true => exact Or.inl (by rw [indexFile_tracked_read_none fs st p hex hmd ht hrd])
        | false => exact Or.inr (indexFile_untracked_read_none fs st p hex hmd ht hrd)
      · exact Or.inr (indexFile_not_eligible fs st p (Or.inr (by simpa using hmd)))
    · exact Or.inr (indexFile_not_eligible fs st p (Or.inl (by simpa using hex)))

/-- C6 amended, witnessed at a path that does not exist (both antecedents
hold there). -/
theorem c6_amended_no_op_witness :
    (indexFile FsEntries.nil stC6 "nope.md" = stC6)
      ∧ ((indexFile FsEntries.nil stC6 "nope.md").indexedPaths
            = deletePath stC6.indexedPaths "nope.md"
          ∨ indexFile FsEntries.nil stC6 "nope.md" = stC6) :=
  ⟨(c6_amended_no_op FsEntries.nil stC6 "nope.md").1 (Or.inl (by decide)),
   (c6_amended_no_op FsEntries.nil stC6 "nope.md").2 (by decide)⟩

/-- C9: Empty-query contract — a query or suggestion prefix that is empty or
whitespace-only yields `[]` from both `search` and `getSuggestions`. -/
theorem c9_empty_query (st : ServerState) (q : String) (h : ∀ c ∈ q.data, c.isWhitespace)
    (sc : Option String) (lim lim2 : Nat) :
    search st q sc lim = [] ∧ getSuggestions st q lim2 = [] := by
  have h0 := jsTrim_of_whitespace q h
  exact ⟨by simp [search, h0], by simp [getSuggestions, h0]⟩

/-- C9 witnessed on the spec's examples: the empty and the three-space query
against the warm scenario state. -/
theorem c9_empty_query_witness :
    (search stW "   " none 50 = [] ∧ getSuggestions stW "   " 10 = [])
      ∧ (search stW "" (some "b") 50 = [] ∧ getSuggestions stW "" 10 = []) :=
  ⟨c9_empty_query stW "   " (by decide) none 50 10,
   c9_empty_query stW "" (by decide) (some "b") 50 10⟩

theorem sameSet_iff (a b : List String) : sameSet a b = true ↔ ∀ x, (x ∈ a ↔ x ∈ b) := by
  unfold sameSet
  rw [Bool.and_eq_true, List.all_eq_true, List.all_eq_true]
  constructor
  · intro h x
    exact ⟨fun hx => (contains_true_iff _ _).mp (h.1 x hx),
           fun hx => (contains_true_iff _ _).mp (h.2 x hx)⟩
  · intro h
    exact ⟨fun x hx => (contains_true_iff _ _).mpr ((h x).mp hx),
           fun x hx => (contains_true_iff _ _).mpr ((h x).mpr hx)⟩

theorem mem_deletePath (l : List String) (p x : String) :
    x ∈ deletePath l p ↔ x ∈ l ∧ ¬ x = p := by
  simp [deletePath]

theorem sameSet_deletePath (a b : List String) (p : String) (h : sameSet a b = true) :
    sameSet (deletePath a p) (deletePath b p) = true := by
  rw [sameSet_iff] at h ⊢
  intro x
  rw [mem_deletePath, mem_deletePath, h x]

theorem sameSet_append_single (a b : List String) (p : String) (h : sameSet a b = true) :
    sameSet (a ++ [p]) (b ++ [p]) = true := by
  rw [sameSet_iff] at h ⊢
  intro x
  simp [List.mem_append, h x]

theorem hasDoc_iff (idx : MiniSearchIndex) (p : String) :
    idx.hasDoc p = true ↔ p ∈ idx.idsOf := by
  unfold MiniSearchIndex.hasDoc MiniSearchIndex.idsOf
  simp

theorem idsOf_filter (docs : List IndexedDocument) (p : String) :
    (⟨docs.filter (fun d => !(d.id == p))⟩ : MiniSearchIndex).idsOf
      = deletePath (⟨docs⟩ : MiniSearchIndex).idsOf p := by
  unfold MiniSearchIndex.idsOf deletePath
  rw [List.filter_map]
  rfl

theorem idsOf_append (docs : List IndexedDocument) (d : IndexedDocument) :
    (⟨docs ++ [d]⟩ : MiniSearchIndex).idsOf = (⟨docs⟩ : MiniSearchIndex).idsOf ++ [d.id] := by
  unfold MiniSearchIndex.idsOf
  simp

theorem removeMatch_idsOf (idx : MiniSearchIndex) (p : String) :
    (match idx.remove p with | some i => i | none => idx).idsOf
      = deletePath idx.idsOf p := by
  unfold MiniSearchIndex.remove
  by_cases h : idx.hasDoc p = true
  · simp only [h, if_true]
    exact idsOf_filter idx.docs p
  · have hb : idx.hasDoc p = false := by simpa using h
    simp only [hb, Bool.false_eq_true, if_false]
    rw [deletePath_eq_self]
    intro hm
    exact h ((hasDoc_iff idx p).mpr hm)

theorem invariant_saveIndex (st : ServerState) (h : invariant st) :
    invariant (saveIndex st) :=
  ⟨h.1, h.1⟩

theorem removeFromIndex_cases (st : ServerState) (p : String) :
    removeFromIndex st p = st ∨
      removeFromIndex st p = ⟨⟨st.searchIndex.docs.filter (fun d => !(d.id == p))⟩,
        deletePath st.indexedPaths p, st.snapshotFile⟩ := by
  unfold removeFromIndex MiniSearchIndex.remove
  by_cases ht : st.indexedPaths.contains p = true
  · have hm := (contains_true_iff _ _).mp ht
    by_cases hd : st.searchIndex.hasDoc p = true
    · right
      simp [hm, hd]
    · left
      have hb : st.searchIndex.hasDoc p = false := by simpa using hd
      simp [hm, hb]
  · left
    have hnm := (contains_false_iff _ _).mp (by simpa using ht)
    simp [hnm]

theorem invariant_removeFromIndex (st : ServerState) (p : String) (h : invariant st) :
    invariant (removeFromIndex st p) := by
  rcases removeFromIndex_cases st p with hc | hc
  · rw [hc]
    exact h
  · rw [hc]
    refine ⟨?_, h.2⟩
    show sameSet (⟨st.searchIndex.docs.filter (fun d => !(d.id == p))⟩ : MiniSearchIndex).idsOf _ = true
    rw [idsOf_filter]
    exact sameSet_deletePath _ _ p h.1

theorem invariant_indexFile (fs : FsEntries) (st : ServerState) (p : String)
    (h : invariant st) : invariant (indexFile fs st p) := by
  by_cases hex : existsSyncFs fs p = true
  case neg =>
    rw [indexFile_not_eligible fs st p (Or.inl (by simpa using hex))]
    exact h
  by_cases hmd : isMarkdownFile p = true
  case neg =>
    rw [indexFile_not_eligible fs st p (Or.inr (by simpa using hmd))]
    exact h
  cases ht : st.indexedPaths.contains p with
  | false =>
    cases hrd : readFileFs fs p with
    | none =>
      rw [indexFile_untracked_read_none fs st p hex hmd ht hrd]
      exact h
    | some c =>
      cases hdoc : st.searchIndex.hasDoc p with
      | true =>
        rw [indexFile_untracked_dup fs st p c hex hmd ht hrd hdoc]
        exact h
      | false =>
        rw [indexFile_untracked_read_some fs st p c hex hmd ht hrd hdoc]
        refine ⟨?_, h.2⟩
        show sameSet (⟨st.searchIndex.docs ++ [⟨p, p, basenameWithoutExt p, c⟩]⟩ :
          MiniSearchIndex).idsOf _ = true
        rw [idsOf_append]
        exact sameSet_append_single _ _ p h.1
  | true =>
    cases hrd : readFileFs fs p with
    | none =>
      rw [indexFile_tracked_read_none fs st p hex hmd ht hrd]
      refine ⟨?_, h.2⟩
      show sameSet (match st.searchIndex.remove p with
        | some idx => idx | none => st.searchIndex).idsOf _ = true
      rw [removeMatch_idsOf]
      exact sameSet_deletePath _ _ p h.1
    | some c =>
      rw [indexFile_tracked_read_some fs st p c hex hmd ht hrd]
      refine ⟨?_, h.2⟩
      show sameSet (⟨(match st.searchIndex.remove p with
        | some idx => idx | none => st.searchIndex).docs
          ++ [⟨p, p, basenameWithoutExt p, c⟩]⟩ : MiniSearchIndex).idsOf _ = true
      rw [idsOf_append, removeMatch_idsOf]
      exact sameSet_append_single _ _ p (sameSet_deletePath _ _ p h.1)

theorem invariant_indexEntries (fs : FsEntries) (es : FsEntries) :
    ∀ b st, invariant st → invariant (indexEntries fs es b st) := by
  induction es with
  | nil =>
    intro b st h
    exact h
  | consFile name c rest ih =>
    intro b st h
    apply ih
    by_cases hh : strStartsWith name "." = true
    · simpa [hh] using h
    · have hb : strStartsWith name "." = false := by simpa using hh
      by_cases hm : isMarkdownFile name = true
      · simpa [hb, hm] using invariant_indexFile fs st (joinRel b name) h
      · have hmb : isMarkdownFile name = false := by simpa using hm
        simpa [hb, hmb] using h
  | consDir name sub rest ihsub ihrest =>
    intro b st h
    apply ihrest
    by_cases hh : strStartsWith name "." = true
    · simpa [hh] using h
    · have hb : strStartsWith name "." = false := by simpa using hh
      simpa [hb] using ihsub (joinRel b name) st h

theorem invariant_clearState (st : ServerState) (h2 : snapOk st.snapshotFile = true) :
    invariant (clearState st) :=
  ⟨rfl, h2⟩

theorem invariant_buildIndex (fs : FsEntries) (st : ServerState) (h : invariant st) :
    invariant (buildIndex fs st) := by
  unfold buildIndex
  cases hs : st.snapshotFile with
  | none =>
    have h2 : snapOk st.snapshotFile = true := h.2
    exact invariant_saveIndex _ (invariant_indexEntries fs fs "" _ (invariant_clearState st h2))
  | some s =>
    cases s with
    | corrupt =>
      have h2 : snapOk st.snapshotFile = true := h.2
      exact invariant_saveIndex _ (invariant_indexEntries fs fs "" _ (invariant_clearState st h2))
    | valid d pth =>
      have h2 := h.2
      rw [hs] at h2
      exact ⟨h2, h2⟩

theorem invariant_applyOp (fs : FsEntries) (st : ServerState) (op : Op) (h : invariant st) :
    invariant (applyOp fs st op) := by
  cases op with
  | build => exact invariant_buildIndex fs st h
  | indexOp p => exact invariant_indexFile fs st p h
  | removeOp p => exact invariant_removeFromIndex st p h
  | save => exact invariant_saveIndex st h

theorem invariant_runOps (fs : FsEntries) (ops : List Op) :
    ∀ st, invariant st → invariant (runOps fs st ops) := by
  induction ops with
  | nil =>
    intro st h
    exact h
  | cons op rest ih =>
    intro st h
    exact ih (applyOp fs st op) (invariant_applyOp fs st op h)

/-- C2: Index/tracked-paths consistency — from any consistent state (the
virgin start, or any state whose snapshot file, if parseable, was written by
`saveIndex`), every sequence of buildIndex / indexFile / removeFromIndex /
saveIndex leaves the set of ids in the index equal to the tracked-paths set:
no operation can make them diverge. -/
theorem c2_index_tracked_consistency (fs : FsEntries) (st : ServerState) (ops : List Op)
    (h : invariant st) :
    sameSet (runOps fs st ops).searchIndex.idsOf (runOps fs st ops).indexedPaths = true :=
  (invariant_runOps fs ops st h).1

/-- C2 witnessed on the scenario filesystem from the virgin state, over a
sequence exercising every operation. -/
theorem c2_index_tracked_consistency_witness :
    invariant stEmpty
      ∧ sameSet (runOps fsW stEmpty opsC2).searchIndex.idsOf
          (runOps fsW stEmpty opsC2).indexedPaths = true :=
  ⟨⟨by decide, by decide⟩,
   c2_index_tracked_consistency fsW stEmpty opsC2 ⟨by decide, by decide⟩⟩


theorem mem_insertResult (r : IndexedDocument × Nat) (l : List (IndexedDocument × Nat))
    (x : IndexedDocument × Nat) :
    x ∈ insertResult r l ↔ x = r ∨ x ∈ l := by
  induction l with
  | nil => simp [insertResult]
  | cons y ys ih =>
    unfold insertResult
    by_cases hc : y.2 < r.2
    · rw [if_pos hc]
      simp [List.mem_cons]
    · rw [if_neg hc]
      simp only [List.mem_cons, ih]
      tauto

theorem mem_sortByScore_aux (l : List (IndexedDocument × Nat)) :
    ∀ acc x, (x ∈ l.foldl (fun a r => insertResult r a) acc ↔ x ∈ acc ∨ x ∈ l) := by
  induction l with
  | nil =>
    intro acc x
    simp
  | cons y ys ih =>
    intro acc x
    simp only [List.foldl_cons]
    rw [ih, mem_insertResult]
    simp only [List.mem_cons]
    tauto

theorem mem_sortByScore (l : List (IndexedDocument × Nat)) (x : IndexedDocument × Nat) :
    x ∈ sortByScore l ↔ x ∈ l := by
  unfold sortByScore
  rw [mem_sortByScore_aux]
  simp

theorem search_result_mem (st : ServerState) (q : String) (sc : Option String) (lim : Nat)
    (r : SearchResult) (h : r ∈ search st q sc lim) :
    ∃ d ∈ st.searchIndex.docs, r.path = d.id := by
  unfold search at h
  by_cases he : (jsTrim q).data.length = 0
  · rw [if_pos he] at h
    exact absurd h (List.not_mem_nil r)
  · rw [if_neg he] at h
    dsimp only at h
    have hstep : ∀ x : IndexedDocument × Nat, x ∈ rawSearch st.searchIndex q →
        ∃ d ∈ st.searchIndex.docs, x.1 = d := by
      intro x hx
      have hx2 := (mem_sortByScore _ _).mp hx
      have hx3 := List.mem_of_mem_filter hx2
      rcases List.mem_map.mp hx3 with ⟨d, hd, hdx⟩
      exact ⟨d, hd, by rw [← hdx]⟩
    cases sc with
    | none =>
      rcases List.mem_map.mp h with ⟨x, hx, hrx⟩
      rcases hstep x (List.take_subset _ _ hx) with ⟨d, hd, hxd⟩
      exact ⟨d, hd, by rw [← hrx, ← hxd]⟩
    | some s =>
      dsimp only at h
      by_cases hs : s = ""
      · rw [if_pos hs] at h
        rcases List.mem_map.mp h with ⟨x, hx, hrx⟩
        rcases hstep x (List.take_subset _ _ hx) with ⟨d, hd, hxd⟩
        exact ⟨d, hd, by rw [← hrx, ← hxd]⟩
      · rw [if_neg hs] at h
        rcases List.mem_map.mp h with ⟨x, hx, hrx⟩
        rcases hstep x (List.mem_of_mem_filter (List.take_subset _ _ hx)) with ⟨d, hd, hxd⟩
        exact ⟨d, hd, by rw [← hrx, ← hxd]⟩

theorem getSuggestions_mem (st : ServerState) (pre : String) (lim : Nat) (t : String)
    (h : t ∈ getSuggestions st pre lim) :
    ∃ d ∈ st.searchIndex.docs, t ∈ docTokens d := by
  unfold getSuggestions at h
  by_cases he : (jsTrim pre).data.length = 0
  · rw [if_pos he] at h
    exact absurd h (List.not_mem_nil t)
  · rw [if_neg he] at h
    have h2 := List.mem_of_mem_filter (List.take_subset _ _ h)
    have h3 := List.mem_dedup.mp h2
    rcases List.mem_flatMap.mp h3 with ⟨d, hd, hdt⟩
    exact ⟨d, hd, hdt⟩

theorem removeFromIndex_docs_subset (st : ServerState) (p : String) (d : IndexedDocument)
    (hd : d ∈ (removeFromIndex st p).searchIndex.docs) :
    d ∈ st.searchIndex.docs := by
  rcases removeFromIndex_cases st p with hc | hc <;> rw [hc] at hd
  · exact hd
  · exact List.mem_of_mem_filter hd

theorem removeFromIndex_no_id (st : ServerState) (p : String)
    (hp : st.indexedPaths.contains p = true) :
    ∀ d ∈ (removeFromIndex st p).searchIndex.docs, d.id ≠ p := by
  intro d hdm hdp
  have hm := (contains_true_iff _ _).mp hp
  by_cases hd : st.searchIndex.hasDoc p = true
  · have hc : removeFromIndex st p
        = ⟨⟨st.searchIndex.docs.filter (fun x => !(x.id == p))⟩,
           deletePath st.indexedPaths p, st.snapshotFile⟩ := by
      unfold removeFromIndex MiniSearchIndex.remove
      simp [hm, hd]
    rw [hc] at hdm
    have h2 := (List.mem_filter.mp hdm).2
    simp [hdp] at h2
  · have hc : removeFromIndex st p = st := by
      unfold removeFromIndex MiniSearchIndex.remove
      simp [hm, hd]
    rw [hc] at hdm
    exact hd ((hasDoc_iff st.searchIndex p).mpr (List.mem_map.mpr ⟨d, hdm, hdp⟩))

/-- C5: Tombstone correctness — after `removeFromIndex(p)` on a tracked path
p, no `search` result (for any query, scope, limit) has path p, and
`getSuggestions` no longer offers any term that occurs in no indexed
document other than p's. -/
theorem c5_tombstone (st : ServerState) (p : String)
    (hp : st.indexedPaths.contains p = true) :
    (∀ q sc lim r, r ∈ search (removeFromIndex st p) q sc lim → r.path ≠ p)
      ∧ (∀ t, (∀ d ∈ st.searchIndex.docs, d.id ≠ p → t ∉ docTokens d) →
          ∀ pre lim, t ∉ getSuggestions (removeFromIndex st p) pre lim) := by
  constructor
  · intro q sc lim r hr
    rcases search_result_mem _ q sc lim r hr with ⟨d, hd, hrd⟩
    rw [hrd]
    exact removeFromIndex_no_id st p hp d hd
  · intro t honly pre lim ht
    rcases getSuggestions_mem _ pre lim t ht with ⟨d, hd, hdt⟩
    exact honly d (removeFromIndex_docs_subset st p d hd)
      (removeFromIndex_no_id st p hp d hd) hdt

/-- C5 witnessed on the scenario state: remove `a.md`, then no search result
is `a.md` for any query, and `milestones` (a term occurring only in `a.md`)
is never suggested. -/
theorem c5_tombstone_witness :
    stW.indexedPaths.contains "a.md" = true
      ∧ (∀ q sc lim r, r ∈ search (removeFromIndex stW "a.md") q sc lim → r.path ≠ "a.md")
      ∧ (∀ pre lim, "milestones" ∉ getSuggestions (removeFromIndex stW "a.md") pre lim) :=
  ⟨by decide, (c5_tombstone stW "a.md" (by decide)).1,
   fun pre lim => (c5_tombstone stW "a.md" (by decide)).2 "milestones" (by decide) pre lim⟩

/-- C4 counterexample: with 51 raw hits for the query, the in-scope document
ranks last; the unscoped default-limit list drops it while the scoped search
returns it, so `search(q, s)` is not a subset of `search(q, undefined)`. -/
theorem c4_counterexample :
    "b/c.md" ∈ (search stC4 "term" (some "b") SEARCH_DEFAULT_LIMIT).map (fun r => r.path)
      ∧ "b/c.md" ∉ (search stC4 "term" none SEARCH_DEFAULT_LIMIT).map (fun r => r.path) := by
  decide

/-- C4 (amended): every result of `search(q, s)` has a path starting with the
slash-trimmed `s`; the limit is applied after scope filtering (the returned
length is the minimum of the limit and the number of in-scope raw hits); and
whenever the raw hit list is not truncated by the limit, the scoped result
set is a subset of the unscoped one. -/
theorem c4_amended_scope_filtering (st : ServerState) (q s : String) (lim : Nat) :
    (∀ r ∈ search st q (some s) lim, strStartsWith r.path (stripSlashes s) = true)
      ∧ ((jsTrim q).data.length ≠ 0 →
          (search st q (some s) lim).length
            = min lim ((rawSearch st.searchIndex q).filter
                (fun r => strStartsWith r.1.id (stripSlashes s))).length)
      ∧ ((rawSearch st.searchIndex q).length ≤ lim →
          ∀ r ∈ search st q (some s) lim, r ∈ search st q none lim) := by
  by_cases he : (jsTrim q).data.length = 0
  · refine ⟨?_, fun hne => absurd he hne, ?_⟩
    · intro r hr
      rw [search, if_pos he] at hr
      exact absurd hr (List.not_mem_nil r)
    · intro hlen r hr
      rw [search, if_pos he] at hr
      exact absurd hr (List.not_mem_nil r)
  · have hunf : search st q (some s) lim
        = ((if s = "" then rawSearch st.searchIndex q
            else (rawSearch st.searchIndex q).filter
              (fun r => strStartsWith r.1.id (stripSlashes s))).take lim).map
          (fun r => ⟨r.1.id, basenameWithoutExt r.1.id, r.2⟩) := by
      rw [search, if_neg he]
    have hunf2 : search st q none lim
        = ((rawSearch st.searchIndex q).take lim).map
          (fun r => ⟨r.1.id, basenameWithoutExt r.1.id, r.2⟩) := by
      rw [search, if_neg he]
    by_cases hs : s = ""
    · subst hs
      rw [if_pos rfl] at hunf
      have hfeq : (rawSearch st.searchIndex q).filter
          (fun r => strStartsWith r.1.id (stripSlashes "")) = rawSearch st.searchIndex q := by
        rw [List.filter_eq_self]
        intro a ha
        rw [stripSlashes_empty]
        exact strStartsWith_empty _
      refine ⟨?_, fun hne => ?_, fun hlen r hr => ?_⟩
      · intro r hr
        rw [stripSlashes_empty]
        exact strStartsWith_empty _
      · rw [hfeq, hunf, List.length_map, List.length_take]
      · rw [hunf2]
        rw [hunf] at hr
        exact hr
    · rw [if_neg hs] at hunf
      refine ⟨?_, fun hne => ?_, fun hlen r hr => ?_⟩
      · intro r hr
        rw [hunf] at hr
        rcases List.mem_map.mp hr with ⟨x, hx, hrx⟩
        have hx2 := List.mem_filter.mp (List.take_subset _ _ hx)
        rw [← hrx]
        exact hx2.2
      · rw [hunf, List.length_map, List.length_take]
      · rw [hunf] at hr
        rw [hunf2]
        rcases List.mem_map.mp hr with ⟨x, hx, hrx⟩
        have hx2 := List.mem_filter.mp (List.take_subset _ _ hx)
        refine List.mem_map.mpr ⟨x, ?_, hrx⟩
        rw [List.take_of_length_le hlen]
        exact hx2.1

/-- C4 amended, witnessed on the scenario state with scope `b`. -/
theorem c4_amended_scope_filtering_witness :
    (∀ r ∈ search stW "roadmap" (some "b") 50, strStartsWith r.path (stripSlashes "b") = true)
      ∧ (search stW "roadmap" (some "b") 50).length
          = min 50 ((rawSearch stW.searchIndex "roadmap").filter
              (fun r => strStartsWith r.1.id (stripSlashes "b"))).length
      ∧ (∀ r ∈ search stW "roadmap" (some "b") 50, r ∈ search stW "roadmap" none 50) :=
  ⟨(c4_amended_scope_filtering stW "roadmap" "b" 50).1,
   (c4_amended_scope_filtering stW "roadmap" "b" 50).2.1 (by decide),
   (c4_amended_scope_filtering stW "roadmap" "b" 50).2.2 (by decide)⟩


theorem ws_not_alnum (c : Char) (h : c.isWhitespace = true) : c.isAlphanum = false := by
  unfold Char.isWhitespace at h
  simp at h
  rcases h with ((h | h) | h) | h <;> subst h <;> decide

theorem all_ws_of_trim_empty (q : String) (h : (jsTrim q).data.length = 0) :
    ∀ c ∈ q.data, c.isWhitespace := by
  unfold jsTrim at h
  rw [List.length_eq_zero] at h
  rw [List.reverse_eq_nil_iff, List.dropWhile_eq_nil_iff] at h
  intro c hc
  have hsplit : c ∈ q.data.takeWhile Char.isWhitespace ++ q.data.dropWhile Char.isWhitespace := by
    rw [List.takeWhile_append_dropWhile]
    exact hc
  rcases List.mem_append.mp hsplit with h1 | h1
  · exact List.mem_takeWhile_imp h1
  · exact h c (List.mem_reverse.mpr h1)

theorem tokenizeAux_nil_of_not_alnum (l : List Char) (h : ∀ c ∈ l, c.isAlphanum = false) :
    tokenizeAux l [] = [] := by
  induction l with
  | nil => rfl
  | cons c cs ih =>
    unfold tokenizeAux
    rw [h c (by simp)]
    simp only [Bool.false_eq_true, if_false, List.isEmpty_nil, if_true]
    exact ih fun x hx => h x (by simp [hx])

theorem tokenize_nil_of_trim_empty (q : String) (h : (jsTrim q).data.length = 0) :
    tokenize q = [] := by
  unfold tokenize
  exact tokenizeAux_nil_of_not_alnum q.data
    (fun c hc => ws_not_alnum c (all_ws_of_trim_empty q h c hc))

theorem matchWeight_le (t tok : String) : matchWeight t tok ≤ 40 := by
  unfold matchWeight
  split_ifs <;> omega

theorem matchWeight_self (t : String) : matchWeight t t = 40 := by
  unfold matchWeight
  rw [if_pos rfl]

theorem bestWeight_le (t : String) (toks : List String) : bestWeight t toks ≤ 40 := by
  unfold bestWeight
  induction toks with
  | nil => simp
  | cons a as ih =>
    rw [List.foldr_cons]
    exact max_le (matchWeight_le t a) ih

theorem bestWeight_of_mem (t : String) (toks : List String) (h : t ∈ toks) :
    bestWeight t toks = 40 := by
  refine le_antisymm (bestWeight_le t toks) ?_
  unfold bestWeight
  induction toks with
  | nil => exact absurd h (List.not_mem_nil t)
  | cons a as ih =>
    rw [List.foldr_cons]
    rcases List.mem_cons.mp h with h2 | h2
    · rw [← h2, matchWeight_self]
      exact le_max_left _ _
    · exact le_trans (ih h2) (le_max_right _ _)

theorem termScore_title_ge (t : String) (d : IndexedDocument) (h : t ∈ tokenize d.title) :
    160 ≤ termScore t d := by
  unfold termScore searchBoostTitle searchBoostContent searchBoostPath
  rw [bestWeight_of_mem t _ h]
  omega

theorem termScore_content_pos (t : String) (d : IndexedDocument) (h : t ∈ tokenize d.content) :
    0 < termScore t d := by
  unfold termScore searchBoostTitle searchBoostContent searchBoostPath
  rw [bestWeight_of_mem t _ h]
  omega

theorem termScore_no_title_le (t : String) (d : IndexedDocument)
    (h : bestWeight t (tokenize d.title) = 0) : termScore t d ≤ 120 := by
  unfold termScore searchBoostTitle searchBoostContent searchBoostPath
  rw [h]
  have h1 := bestWeight_le t (tokenize d.content)
  have h2 := bestWeight_le t (tokenize d.path)
  omega

theorem scoreDoc_single (t : String) (d : IndexedDocument) :
    scoreDoc [t] d = termScore t d := by
  unfold scoreDoc
  simp

theorem length_insertResult (r : IndexedDocument × Nat) (l : List (IndexedDocument × Nat)) :
    (insertResult r l).length = l.length + 1 := by
  induction l with
  | nil => rfl
  | cons y ys ih =>
    unfold insertResult
    by_cases hc : y.2 < r.2
    · rw [if_pos hc]
      simp
    · rw [if_neg hc]
      simp [ih]

theorem length_sortByScore_aux (l : List (IndexedDocument × Nat)) :
    ∀ acc, (l.foldl (fun a r => insertResult r a) acc).length = acc.length + l.length := by
  induction l with
  | nil => intro acc; simp
  | cons y ys ih =>
    intro acc
    rw [List.foldl_cons, ih, length_insertResult, List.length_cons]
    omega

theorem length_sortByScore (l : List (IndexedDocument × Nat)) :
    (sortByScore l).length = l.length := by
  unfold sortByScore
  rw [length_sortByScore_aux]
  simp

theorem mem_rawSearch_iff (idx : MiniSearchIndex) (q : String) (x : IndexedDocument × Nat) :
    x ∈ rawSearch idx q
      ↔ (x.1 ∈ idx.docs ∧ x.2 = scoreDoc (tokenize q) x.1 ∧ 0 < x.2) := by
  unfold rawSearch
  rw [mem_sortByScore, List.mem_filter]
  constructor
  · intro ⟨h1, h2⟩
    rcases List.mem_map.mp h1 with ⟨d, hd, hdx⟩
    refine ⟨?_, ?_, by simpa using h2⟩
    · rw [← hdx]
      exact hd
    · rw [← hdx]
  · intro ⟨h1, h2, h3⟩
    refine ⟨List.mem_map.mpr ⟨x.1, h1, ?_⟩, by simpa using h3⟩
    rw [← h2]

theorem length_rawSearch_le (idx : MiniSearchIndex) (q : String) :
    (rawSearch idx q).length ≤ idx.docs.length := by
  unfold rawSearch
  rw [length_sortByScore]
  calc (((idx.docs.map (fun d => (d, scoreDoc (tokenize q) d))).filter (fun r => 0 < r.2))).length
      ≤ ((idx.docs.map (fun d => (d, scoreDoc (tokenize q) d)))).length :=
        List.length_filter_le _ _
    _ = idx.docs.length := List.length_map _ _

theorem sorted_insertResult (r : IndexedDocument × Nat) (l : List (IndexedDocument × Nat))
    (h : l.Pairwise (fun a b => b.2 ≤ a.2)) :
    (insertResult r l).Pairwise (fun a b => b.2 ≤ a.2) := by
  induction l with
  | nil => simp [insertResult]
  | cons y ys ih =>
    unfold insertResult
    rw [List.pairwise_cons] at h
    by_cases hc : y.2 < r.2
    · rw [if_pos hc]
      rw [List.pairwise_cons]
      constructor
      · intro z hz
        rcases List.mem_cons.mp hz with h1 | h1
        · rw [h1]
          exact le_of_lt hc
        · exact le_trans (h.1 z h1) (le_of_lt hc)
      · rw [List.pairwise_cons]
        exact h
    · rw [if_neg hc]
      rw [List.pairwise_cons]
      constructor
      · intro z hz
        rcases (mem_insertResult r ys z).mp hz with h1 | h1
        · rw [h1]
          exact Nat.not_lt.mp hc
        · exact h.1 z h1
      · exact ih h.2

theorem sorted_sortByScore_aux (l : List (IndexedDocument × Nat)) :
    ∀ acc, acc.Pairwise (fun a b => b.2 ≤ a.2) →
      (l.foldl (fun a r => insertResult r a) acc).Pairwise (fun a b => b.2 ≤ a.2) := by
  induction l with
  | nil => intro acc h; exact h
  | cons y ys ih =>
    intro acc h
    rw [List.foldl_cons]
    exact ih _ (sorted_insertResult y acc h)

theorem sorted_rawSearch (idx : MiniSearchIndex) (q : String) :
    (rawSearch idx q).Pairwise (fun a b => b.2 ≤ a.2) := by
  unfold rawSearch sortByScore
  exact sorted_sortByScore_aux _ _ List.Pairwise.nil

/-- C7: Boost ordering — for a single-term query whose term occurs in
document A's title tokens but matches no token of document B's title (while
occurring in B's body), A's result precedes B's in the search output: the
title boost (2) strictly dominates the best the content (1) and path (0.5)
fields can contribute.  The uniqueness hypotheses pin the two ids to the two
documents; the limit hypothesis keeps both inside the returned page. -/
theorem c7_boost_ordering (st : ServerState) (A B : IndexedDocument) (q t : String) (lim : Nat)
    (hA : A ∈ st.searchIndex.docs) (hB : B ∈ st.searchIndex.docs)
    (hqt : tokenize q = [t])
    (hAt : t ∈ tokenize A.title)
    (hBt : bestWeight t (tokenize B.title) = 0)
    (hBc : t ∈ tokenize B.content)
    (hAB : A.id ≠ B.id)
    (huA : ∀ d ∈ st.searchIndex.docs, d.id = A.id → d = A)
    (huB : ∀ d ∈ st.searchIndex.docs, d.id = B.id → d = B)
    (hlim : st.searchIndex.docs.length ≤ lim) :
    A.id ∈ (search st q none lim).map (fun r => r.path)
      ∧ B.id ∈ (search st q none lim).map (fun r => r.path)
      ∧ ∀ i j, ∀ (hi : i < ((search st q none lim).map (fun r => r.path)).length)
          (hj : j < ((search st q none lim).map (fun r => r.path)).length),
          ((search st q none lim).map (fun r => r.path))[i] = A.id →
          ((search st q none lim).map (fun r => r.path))[j] = B.id → i < j := by
  have he : ¬ (jsTrim q).data.length = 0 := by
    intro h0
    rw [tokenize_nil_of_trim_empty q h0] at hqt
    simp at hqt
  have hraw_len : (rawSearch st.searchIndex q).length ≤ lim :=
    le_trans (length_rawSearch_le _ _) hlim
  have hunf : search st q none lim
      = (rawSearch st.searchIndex q).map
          (fun r => ⟨r.1.id, basenameWithoutExt r.1.id, r.2⟩) := by
    rw [search, if_neg he]
    dsimp only
    rw [List.take_of_length_le hraw_len]
  have hsA : scoreDoc (tokenize q) A = termScore t A := by rw [hqt, scoreDoc_single]
  have hsB : scoreDoc (tokenize q) B = termScore t B := by rw [hqt, scoreDoc_single]
  have hAraw : (A, scoreDoc (tokenize q) A) ∈ rawSearch st.searchIndex q := by
    rw [mem_rawSearch_iff]
    refine ⟨hA, rfl, ?_⟩
    rw [hsA]
    have h1 := termScore_title_ge t A hAt
    omega
  have hBraw : (B, scoreDoc (tokenize q) B) ∈ rawSearch st.searchIndex q := by
    rw [mem_rawSearch_iff]
    exact ⟨hB, rfl, by rw [hsB]; exact termScore_content_pos t B hBc⟩
  have hps : (search st q none lim).map (fun r => r.path)
      = (rawSearch st.searchIndex q).map (fun r => r.1.id) := by
    rw [hunf, List.map_map]
    rfl
  refine ⟨?_, ?_, ?_⟩
  · rw [hps]
    exact List.mem_map.mpr ⟨_, hAraw, rfl⟩
  · rw [hps]
    exact List.mem_map.mpr ⟨_, hBraw, rfl⟩
  · intro i j hi hj hiA hjB
    have hi2 : i < (rawSearch st.searchIndex q).length := by
      rw [hps, List.length_map] at hi
      exact hi
    have hj2 : j < (rawSearch st.searchIndex q).length := by
      rw [hps, List.length_map] at hj
      exact hj
    simp only [hps, List.getElem_map] at hiA hjB
    have hiein := List.getElem_mem hi2
    have hjein := List.getElem_mem hj2
    rw [mem_rawSearch_iff] at hiein hjein
    have hidA : (rawSearch st.searchIndex q)[i].1 = A :=
      huA _ hiein.1 hiA
    have hjdB : (rawSearch st.searchIndex q)[j].1 = B :=
      huB _ hjein.1 hjB
    have hscoreA : 160 ≤ (rawSearch st.searchIndex q)[i].2 := by
      rw [hiein.2.1, hidA, hsA]
      exact termScore_title_ge t A hAt
    have hscoreB : (rawSearch st.searchIndex q)[j].2 ≤ 120 := by
      rw [hjein.2.1, hjdB, hsB]
      exact termScore_no_title_le t B hBt
    by_contra hij
    have hle : j ≤ i := Nat.not_lt.mp hij
    rcases Nat.lt_or_ge j i with hlt | hge
    · have hrel := List.pairwise_iff_get.mp (sorted_rawSearch st.searchIndex q)
        ⟨j, hj2⟩ ⟨i, hi2⟩ hlt
      simp only [List.get_eq_getElem] at hrel
      omega
    · have hjeqi : j = i := le_antisymm hle hge
      subst hjeqi
      exact hAB (hiA.symm.trans hjB)

/-- C7 witnessed on the two-document fixture: `plan.md` (title match) ranks
ahead of `notes.md` (body match) for the query `plan`. -/
theorem c7_boost_ordering_witness :
    "plan.md" ∈ (search stC7 "plan" none 50).map (fun r => r.path)
      ∧ "notes.md" ∈ (search stC7 "plan" none 50).map (fun r => r.path)
      ∧ ∀ i j, ∀ (hi : i < ((search stC7 "plan" none 50).map (fun r => r.path)).length)
          (hj : j < ((search stC7 "plan" none 50).map (fun r => r.path)).length),
          ((search stC7 "plan" none 50).map (fun r => r.path))[i] = "plan.md" →
          ((search stC7 "plan" none 50).map (fun r => r.path))[j] = "notes.md" → i < j :=
  c7_boost_ordering stC7 ⟨"plan.md", "plan.md", "plan", "other words"⟩
    ⟨"notes.md", "notes.md", "notes", "plan text"⟩ "plan" "plan" 50
    (by decide) (by decide) (by decide) (by decide) (by decide) (by decide)
    (by decide) (by decide) (by decide) (by decide)


theorem splitC_ne_nil (l : List Char) : splitC l ≠ [] := by
  induction l with
  | nil => simp [splitC]
  | cons c cs ih =>
    unfold splitC
    by_cases hc : c = '/'
    · rw [if_pos hc]
      simp
    · rw [if_neg hc]
      cases hsp : splitC cs with
      | nil => simp
      | cons g gs => simp

theorem splitC_no_slash (l : List Char) (h : ∀ c ∈ l, ¬ c = '/') : splitC l = [l] := by
  induction l with
  | nil => rfl
  | cons c cs ih =>
    unfold splitC
    rw [if_neg (h c (by simp))]
    rw [ih fun x hx => h x (by simp [hx])]

theorem splitC_append_slash (l n : List Char) (h : ∀ c ∈ n, ¬ c = '/') :
    splitC (l ++ '/' :: n) = splitC l ++ [n] := by
  induction l with
  | nil =>
    rw [List.nil_append]
    unfold splitC
    rw [if_pos rfl, splitC_no_slash n h]
    rfl
  | cons c cs ih =>
    by_cases hc : c = '/'
    · rw [List.cons_append]
      unfold splitC
      rw [if_pos hc, if_pos hc, ih]
      rfl
    · rw [List.cons_append]
      unfold splitC
      rw [if_neg hc, if_neg hc, ih]
      cases hsp : splitC cs with
      | nil => exact absurd hsp (splitC_ne_nil cs)
      | cons g gs => simp

theorem goodName_ne_empty (n : String) (h : goodName n = true) : ¬ n = "" := by
  unfold goodName at h
  rw [Bool.and_eq_true] at h
  simpa using h.1

theorem goodName_no_slash (n : String) (h : goodName n = true) : ∀ c ∈ n.data, ¬ c = '/' := by
  unfold goodName at h
  rw [Bool.and_eq_true] at h
  intro c hc hceq
  have h2 := h.2
  simp at h2
  exact h2 (hceq ▸ hc)

theorem joinRel_ne_empty (b n : String) (hn : goodName n = true) : ¬ joinRel b n = "" := by
  unfold joinRel
  by_cases hb : b = ""
  · rw [if_pos hb]
    exact goodName_ne_empty n hn
  · rw [if_neg hb]
    intro he
    have hd : (b ++ "/" ++ n).data = b.data ++ '/' :: n.data := by simp
    rw [he] at hd
    simp at hd

theorem splitSlash_no_slash (n : String) (h : goodName n = true) : splitSlash n = [n] := by
  unfold splitSlash
  rw [splitC_no_slash n.data (goodName_no_slash n h)]
  rfl

theorem splitSlash_append (b n : String) (hn : goodName n = true) :
    splitSlash (b ++ "/" ++ n) = splitSlash b ++ [n] := by
  unfold splitSlash
  have hd : (b ++ "/" ++ n).data = b.data ++ '/' :: n.data := by simp
  rw [hd, splitC_append_slash b.data n.data (goodName_no_slash n hn)]
  simp

theorem segsOf_joinRel (b n : String) (hn : goodName n = true) :
    segsOf (joinRel b n) = segsOf b ++ [n] := by
  unfold segsOf joinRel
  by_cases hb : b = ""
  · rw [if_pos hb, if_pos hb, if_neg (goodName_ne_empty n hn)]
    rw [splitSlash_no_slash n hn]
    rfl
  · rw [if_neg hb, if_neg hb]
    rw [if_neg (by
      intro he
      have hd : (b ++ "/" ++ n).data = b.data ++ '/' :: n.data := by simp
      rw [he] at hd
      simp at hd)]
    exact splitSlash_append b n hn

theorem resolveSegs_single (es : FsEntries) (n : String) (node : FsNode)
    (h : findEntry es n = some node) : resolveSegs es [n] = some node := by
  unfold resolveSegs
  rw [h]
  cases node with
  | file c => rfl
  | dir sub => rfl

theorem resolveSegs_append_single (es : FsEntries) (segs : List String) (n : String)
    (sub : FsEntries) (node : FsNode) (hres : resolveSegs es segs = some (.dir sub))
    (hfind : findEntry sub n = some node) :
    resolveSegs es (segs ++ [n]) = some node := by
  induction segs generalizing es with
  | nil =>
    unfold resolveSegs at hres
    simp at hres
    subst hres
    exact resolveSegs_single es n node hfind
  | cons seg rest ih =>
    rw [List.cons_append]
    unfold resolveSegs at hres ⊢
    cases hfe : findEntry es seg with
    | none =>
      rw [hfe] at hres
      simp at hres
    | some nd =>
      rw [hfe] at hres
      cases nd with
      | file c =>
        cases hre : rest.isEmpty <;> simp [hre] at hres
      | dir sub2 =>
        dsimp only at hres ⊢
        exact ih sub2 hres

theorem resolvePath_joinRel (fs : FsEntries) (base n : String) (sub : FsEntries) (node : FsNode)
    (hres : resolvePath fs base = some (.dir sub)) (hn : goodName n = true)
    (hfind : findEntry sub n = some node) :
    resolvePath fs (joinRel base n) = some node := by
  unfold resolvePath at hres ⊢
  rw [segsOf_joinRel base n hn]
  exact resolveSegs_append_single fs (segsOf base) n sub node hres hfind

theorem basenameStr_joinRel (b n : String) (hn : goodName n = true) :
    basenameStr (joinRel b n) = n := by
  unfold basenameStr joinRel
  by_cases hb : b = ""
  · rw [if_pos hb, splitSlash_no_slash n hn]
    rfl
  · rw [if_neg hb, splitSlash_append b n hn]
    simp

theorem basenameStr_goodName (n : String) (hn : goodName n = true) : basenameStr n = n := by
  unfold basenameStr
  rw [splitSlash_no_slash n hn]
  rfl

theorem isMarkdownFile_joinRel (b n : String) (hn : goodName n = true) :
    isMarkdownFile (joinRel b n) = isMarkdownFile n := by
  unfold isMarkdownFile extname
  rw [basenameStr_joinRel b n hn, basenameStr_goodName n hn]

theorem entryIn_keysContain (n : String) (node : FsNode) (es : FsEntries)
    (h : EntryIn n node es) : keysContain es n = true := by
  induction h with
  | fileHead c rest => simp [keysContain]
  | dirHead sub rest => simp [keysContain]
  | fileTail node m c rest hin ih => simp [keysContain, ih]
  | dirTail node m sub rest hin ih => simp [keysContain, ih]

theorem wf_findEntry (n : String) (node : FsNode) (es : FsEntries)
    (hwf : wfEntries es = true) (h : EntryIn n node es) : findEntry es n = some node := by
  induction h with
  | fileHead c rest =>
    unfold findEntry
    rw [if_pos rfl]
  | dirHead sub rest =>
    unfold findEntry
    rw [if_pos rfl]
  | fileTail node m c rest hin ih =>
    unfold wfEntries at hwf
    simp only [Bool.and_eq_true] at hwf
    unfold findEntry
    rw [if_neg ?_]
    · exact ih hwf.2
    · intro hmn
      subst hmn
      rw [entryIn_keysContain _ _ _ hin] at hwf
      simpa using hwf.1.2
  | dirTail node m sub rest hin ih =>
    unfold wfEntries at hwf
    simp only [Bool.and_eq_true] at hwf
    unfold findEntry
    rw [if_neg ?_]
    · exact ih hwf.2
    · intro hmn
      subst hmn
      rw [entryIn_keysContain _ _ _ hin] at hwf
      simpa using hwf.1.1.2

theorem wf_goodName (n : String) (node : FsNode) (es : FsEntries)
    (hwf : wfEntries es = true) (h : EntryIn n node es) : goodName n = true := by
  induction h with
  | fileHead c rest =>
    unfold wfEntries at hwf
    simp only [Bool.and_eq_true] at hwf
    exact hwf.1.1
  | dirHead sub rest =>
    unfold wfEntries at hwf
    simp only [Bool.and_eq_true] at hwf
    exact hwf.1.1.1
  | fileTail node m c rest hin ih =>
    unfold wfEntries at hwf
    simp only [Bool.and_eq_true] at hwf
    exact ih hwf.2
  | dirTail node m sub rest hin ih =>
    unfold wfEntries at hwf
    simp only [Bool.and_eq_true] at hwf
    exact ih hwf.2

theorem wf_subdir (n : String) (node : FsNode) (es : FsEntries)
    (hwf : wfEntries es = true) (h : EntryIn n node es) :
    ∀ sub, node = FsNode.dir sub → wfEntries sub = true := by
  induction h with
  | fileHead c rest =>
    intro sub heq
    exact absurd heq (by simp)
  | dirHead sub2 rest =>
    intro sub hseq
    unfold wfEntries at hwf
    simp only [Bool.and_eq_true] at hwf
    cases hseq
    exact hwf.1.2
  | fileTail node m c rest hin ih =>
    unfold wfEntries at hwf
    simp only [Bool.and_eq_true] at hwf
    exact ih hwf.2
  | dirTail node m sub2 rest hin ih =>
    unfold wfEntries at hwf
    simp only [Bool.and_eq_true] at hwf
    exact ih hwf.2

theorem entriesResolved_of_wf (fs : FsEntries) (base : String) (es : FsEntries)
    (hwf : wfEntries es = true) (hres : resolvePath fs base = some (.dir es)) :
    EntriesResolved fs base es := by
  intro n node hin
  have hg := wf_goodName n node es hwf hin
  exact ⟨hg, resolvePath_joinRel fs base n es node hres hg (wf_findEntry n node es hwf hin),
    wf_subdir n node es hwf hin⟩

theorem ER_tail_file (fs : FsEntries) (base n : String) (c : Option String) (rest : FsEntries)
    (h : EntriesResolved fs base (.consFile n c rest)) : EntriesResolved fs base rest :=
  fun m node hin => h m node (EntryIn.fileTail m node n c rest hin)

theorem ER_tail_dir (fs : FsEntries) (base n : String) (sub rest : FsEntries)
    (h : EntriesResolved fs base (.consDir n sub rest)) : EntriesResolved fs base rest :=
  fun m node hin => h m node (EntryIn.dirTail m node n sub rest hin)

theorem ER_head_file (fs : FsEntries) (base n : String) (c : Option String) (rest : FsEntries)
    (h : EntriesResolved fs base (.consFile n c rest)) :
    goodName n = true ∧ resolvePath fs (joinRel base n) = some (.file c) :=
  ⟨(h n (.file c) (EntryIn.fileHead n c rest)).1,
   (h n (.file c) (EntryIn.fileHead n c rest)).2.1⟩

theorem ER_head_dir (fs : FsEntries) (base n : String) (sub rest : FsEntries)
    (h : EntriesResolved fs base (.consDir n sub rest)) :
    goodName n = true ∧ resolvePath fs (joinRel base n) = some (.dir sub)
      ∧ wfEntries sub = true :=
  ⟨(h n (.dir sub) (EntryIn.dirHead n sub rest)).1,
   (h n (.dir sub) (EntryIn.dirHead n sub rest)).2.1,
   (h n (.dir sub) (EntryIn.dirHead n sub rest)).2.2 sub rfl⟩

theorem eligible_resolve (fs : FsEntries) (p : String) (he : eligiblePath fs p = true) :
    isMarkdownFile p = true ∧ ∃ c, resolvePath fs p = some (.file (some c)) := by
  unfold eligiblePath at he
  rw [Bool.and_eq_true] at he
  refine ⟨he.1, ?_⟩
  have h2 := he.2
  cases hr : resolvePath fs p with
  | none =>
    rw [hr] at h2
    simp at h2
  | some nd =>
    rw [hr] at h2
    cases nd with
    | dir sub => simp at h2
    | file c =>
      cases c with
      | none => simp at h2
      | some cc => exact ⟨cc, rfl⟩

theorem eligible_of_parts (fs : FsEntries) (p c : String) (hmd : isMarkdownFile p = true)
    (hr : resolvePath fs p = some (.file (some c))) : eligiblePath fs p = true := by
  unfold eligiblePath
  rw [hmd, hr]
  rfl

theorem existsSync_of_resolve (fs : FsEntries) (p : String) (node : FsNode)
    (hr : resolvePath fs p = some node) : existsSyncFs fs p = true := by
  unfold existsSyncFs
  rw [hr]
  rfl

theorem readFileFs_of_resolve (fs : FsEntries) (p c : String)
    (hr : resolvePath fs p = some (.file (some c))) : readFileFs fs p = some c := by
  unfold readFileFs
  rw [hr]

theorem resolve_of_readFileFs (fs : FsEntries) (p c : String)
    (hrd : readFileFs fs p = some c) : resolvePath fs p = some (.file (some c)) := by
  unfold readFileFs at hrd
  cases hr : resolvePath fs p with
  | none =>
    rw [hr] at hrd
    simp at hrd
  | some nd =>
    rw [hr] at hrd
    cases nd with
    | dir sub => simp at hrd
    | file cx =>
      cases cx with
      | none => simp at hrd
      | some cc =>
        simp at hrd
        rw [hrd]

theorem indexFile_paths_upper (fs : FsEntries) (st : ServerState) (p q' : String)
    (hq : q' ∈ (indexFile fs st p).indexedPaths) :
    q' ∈ st.indexedPaths ∨ (q' = p ∧ eligiblePath fs p = true) := by
  by_cases hex : existsSyncFs fs p = true
  case neg =>
    rw [indexFile_not_eligible fs st p (Or.inl (by simpa using hex))] at hq
    exact Or.inl hq
  by_cases hmd : isMarkdownFile p = true
  case neg =>
    rw [indexFile_not_eligible fs st p (Or.inr (by simpa using hmd))] at hq
    exact Or.inl hq
  cases ht : st.indexedPaths.contains p with
  | false =>
    cases hrd : readFileFs fs p with
    | none =>
      rw [indexFile_untracked_read_none fs st p hex hmd ht hrd] at hq
      exact Or.inl hq
    | some c =>
      cases hdoc : st.searchIndex.hasDoc p with
      | true =>
        rw [indexFile_untracked_dup fs st p c hex hmd ht hrd hdoc] at hq
        exact Or.inl hq
      | false =>
        rw [indexFile_untracked_read_some fs st p c hex hmd ht hrd hdoc] at hq
        rcases List.mem_append.mp hq with h1 | h1
        · exact Or.inl h1
        · refine Or.inr ⟨by simpa using h1, ?_⟩
          exact eligible_of_parts fs p c hmd (resolve_of_readFileFs fs p c hrd)
  | true =>
    cases hrd : readFileFs fs p with
    | none =>
      rw [indexFile_tracked_read_none fs st p hex hmd ht hrd] at hq
      exact Or.inl ((mem_deletePath _ _ _).mp hq).1
    | some c =>
      rw [indexFile_tracked_read_some fs st p c hex hmd ht hrd] at hq
      rcases List.mem_append.mp hq with h1 | h1
      · exact Or.inl ((mem_deletePath _ _ _).mp h1).1
      · refine Or.inr ⟨by simpa using h1, ?_⟩
        exact eligible_of_parts fs p c hmd (resolve_of_readFileFs fs p c hrd)

theorem indexFile_preserves_eligible (fs : FsEntries) (st : ServerState) (p q' : String)
    (he : eligiblePath fs q' = true) (hq : q' ∈ st.indexedPaths) :
    q' ∈ (indexFile fs st p).indexedPaths := by
  by_cases hpq : q' = p
  · subst hpq
    rcases eligible_resolve fs q' he with ⟨hmd, c, hr⟩
    have hex := existsSync_of_resolve fs q' _ hr
    have hrd := readFileFs_of_resolve fs q' c hr
    have ht : st.indexedPaths.contains q' = true := (contains_true_iff _ _).mpr hq
    rw [indexFile_tracked_read_some fs st q' c hex hmd ht hrd]
    simp
  · by_cases hex : existsSyncFs fs p = true
    case neg =>
      rw [indexFile_not_eligible fs st p (Or.inl (by simpa using hex))]
      exact hq
    by_cases hmd : isMarkdownFile p = true
    case neg =>
      rw [indexFile_not_eligible fs st p (Or.inr (by simpa using hmd))]
      exact hq
    cases ht : st.indexedPaths.contains p with
    | false =>
      cases hrd : readFileFs fs p with
      | none =>
        rw [indexFile_untracked_read_none fs st p hex hmd ht hrd]
        exact hq
      | some c =>
        cases hdoc : st.searchIndex.hasDoc p with
        | true =>
          rw [indexFile_untracked_dup fs st p c hex hmd ht hrd hdoc]
          exact hq
        | false =>
          rw [indexFile_untracked_read_some fs st p c hex hmd ht hrd hdoc]
          exact List.mem_append.mpr (Or.inl hq)
    | true =>
      cases hrd : readFileFs fs p with
      | none =>
        rw [indexFile_tracked_read_none fs st p hex hmd ht hrd]
        exact (mem_deletePath _ _ _).mpr ⟨hq, hpq⟩
      | some c =>
        rw [indexFile_tracked_read_some fs st p c hex hmd ht hrd]
        exact List.mem_append.mpr (Or.inl ((mem_deletePath _ _ _).mpr ⟨hq, hpq⟩))

theorem indexFile_adds_eligible (fs : FsEntries) (st : ServerState) (p : String)
    (he : eligiblePath fs p = true)
    (hinv : sameSet st.searchIndex.idsOf st.indexedPaths = true) :
    p ∈ (indexFile fs st p).indexedPaths := by
  rcases eligible_resolve fs p he with ⟨hmd, c, hr⟩
  have hex := existsSync_of_resolve fs p _ hr
  have hrd := readFileFs_of_resolve fs p c hr
  cases ht : st.indexedPaths.contains p with
  | true =>
    rw [indexFile_tracked_read_some fs st p c hex hmd ht hrd]
    simp
  | false =>
    have hnp : p ∉ st.indexedPaths := (contains_false_iff _ _).mp ht
    have hdoc : st.searchIndex.hasDoc p = false := by
      cases hd : st.searchIndex.hasDoc p with
      | false => rfl
      | true =>
        exact absurd (((sameSet_iff _ _).mp hinv p).mp ((hasDoc_iff _ _).mp hd)) hnp
    rw [indexFile_untracked_read_some fs st p c hex hmd ht hrd hdoc]
    simp

theorem collect_eligible (fs : FsEntries) (es : FsEntries) :
    ∀ base q', EntriesResolved fs base es → q' ∈ collectEntries es base →
      eligiblePath fs q' = true := by
  induction es with
  | nil =>
    intro base q' _ hq
    simp [collectEntries] at hq
  | consFile name c rest ihr =>
    intro base q' hER hq
    unfold collectEntries at hq
    rcases List.mem_append.mp hq with h1 | h1
    · by_cases hh : strStartsWith name "." = true
      · rw [if_pos hh] at h1
        simp at h1
      · rw [if_neg hh] at h1
        by_cases hmc : (isMarkdownFile name && c.isSome) = true
        · rw [if_pos hmc] at h1
          have hq1 : q' = joinRel base name := by simpa using h1
          subst hq1
          rcases ER_head_file fs base name c rest hER with ⟨hg, hres⟩
          rw [Bool.and_eq_true] at hmc
          cases c with
          | none => simp at hmc
          | some cc =>
            exact eligible_of_parts fs _ cc
              (by rw [isMarkdownFile_joinRel base name hg]; exact hmc.1) hres
        · rw [if_neg hmc] at h1
          simp at h1
    · exact ihr base q' (ER_tail_file fs base name c rest hER) h1
  | consDir name sub rest ihs ihr =>
    intro base q' hER hq
    unfold collectEntries at hq
    rcases List.mem_append.mp hq with h1 | h1
    · by_cases hh : strStartsWith name "." = true
      · rw [if_pos hh] at h1
        simp at h1
      · rw [if_neg hh] at h1
        rcases ER_head_dir fs base name sub rest hER with ⟨hg, hres, hwfs⟩
        exact ihs (joinRel base name) q' (entriesResolved_of_wf fs _ sub hwfs hres) h1
    · exact ihr base q' (ER_tail_dir fs base name sub rest hER) h1

theorem indexEntries_preserves_eligible (fs : FsEntries) (es : FsEntries) :
    ∀ base st q', eligiblePath fs q' = true → q' ∈ st.indexedPaths →
      q' ∈ (indexEntries fs es base st).indexedPaths := by
  induction es with
  | nil =>
    intro base st q' _ hq
    exact hq
  | consFile name c rest ihr =>
    intro base st q' he hq
    unfold indexEntries
    dsimp only
    apply ihr base _ q' he
    by_cases hh : strStartsWith name "." = true
    · rw [if_pos hh]
      exact hq
    · rw [if_neg hh]
      by_cases hm : isMarkdownFile name = true
      · rw [if_pos hm]
        exact indexFile_preserves_eligible fs st _ q' he hq
      · rw [if_neg hm]
        exact hq
  | consDir name sub rest ihs ihr =>
    intro base st q' he hq
    unfold indexEntries
    dsimp only
    apply ihr base _ q' he
    by_cases hh : strStartsWith name "." = true
    · rw [if_pos hh]
      exact hq
    · rw [if_neg hh]
      exact ihs (joinRel base name) st q' he hq

theorem indexEntries_paths_upper (fs : FsEntries) (es : FsEntries) :
    ∀ base st q', EntriesResolved fs base es →
      q' ∈ (indexEntries fs es base st).indexedPaths →
      q' ∈ st.indexedPaths ∨ q' ∈ collectEntries es base := by
  induction es with
  | nil =>
    intro base st q' _ hq
    exact Or.inl hq
  | consFile name c rest ihr =>
    intro base st q' hER hq
    unfold indexEntries at hq
    dsimp only at hq
    rcases ihr base _ q' (ER_tail_file fs base name c rest hER) hq with h1 | h1
    · by_cases hh : strStartsWith name "." = true
      · rw [if_pos hh] at h1
        exact Or.inl h1
      · rw [if_neg hh] at h1
        by_cases hm : isMarkdownFile name = true
        · rw [if_pos hm] at h1
          rcases indexFile_paths_upper fs st _ q' h1 with h2 | h2
          · exact Or.inl h2
          · right
            unfold collectEntries
            apply List.mem_append.mpr
            left
            rw [if_neg hh]
            rcases ER_head_file fs base name c rest hER with ⟨hg, hres⟩
            rcases eligible_resolve fs _ h2.2 with ⟨hmdj, cc, hrj⟩
            rw [hres] at hrj
            have hcc : c = some cc := by
              injection hrj with h3
              injection h3
            rw [if_pos (by
              rw [Bool.and_eq_true]
              exact ⟨hm, by rw [hcc]; rfl⟩)]
            simp [h2.1]
        · rw [if_neg hm] at h1
          exact Or.inl h1
    · right
      unfold collectEntries
      exact List.mem_append.mpr (Or.inr h1)
  | consDir name sub rest ihs ihr =>
    intro base st q' hER hq
    unfold indexEntries at hq
    dsimp only at hq
    rcases ihr base _ q' (ER_tail_dir fs base name sub rest hER) hq with h1 | h1
    · by_cases hh : strStartsWith name "." = true
      · rw [if_pos hh] at h1
        exact Or.inl h1
      · rw [if_neg hh] at h1
        rcases ER_head_dir fs base name sub rest hER with ⟨hg, hres, hwfs⟩
        rcases ihs (joinRel base name) st q'
            (entriesResolved_of_wf fs _ sub hwfs hres) h1 with h2 | h2
        · exact Or.inl h2
        · right
          unfold collectEntries
          apply List.mem_append.mpr
          left
          rw [if_neg hh]
          exact h2
    · right
      unfold collectEntries
      exact List.mem_append.mpr (Or.inr h1)

theorem indexEntries_adds_collected (fs : FsEntries) (es : FsEntries) :
    ∀ base st q', EntriesResolved fs base es → invariant st →
      q' ∈ collectEntries es base → q' ∈ (indexEntries fs es base st).indexedPaths := by
  induction es with
  | nil =>
    intro base st q' _ _ hq
    simp [collectEntries] at hq
  | consFile name c rest ihr =>
    intro base st q' hER hinv hq
    unfold collectEntries at hq
    unfold indexEntries
    dsimp only
    have hinv1 : invariant (if strStartsWith name "." = true then st
        else if isMarkdownFile name = true then indexFile fs st (joinRel base name) else st) := by
      by_cases hh : strStartsWith name "." = true
      · rw [if_pos hh]
        exact hinv
      · rw [if_neg hh]
        by_cases hm : isMarkdownFile name = true
        · rw [if_pos hm]
          exact invariant_indexFile fs st _ hinv
        · rw [if_neg hm]
          exact hinv
    rcases List.mem_append.mp hq with h1 | h1
    · by_cases hh : strStartsWith name "." = true
      · rw [if_pos hh] at h1
        simp at h1
      · rw [if_neg hh] at h1
        by_cases hmc : (isMarkdownFile name && c.isSome) = true
        · rw [if_pos hmc] at h1
          have hq1 : q' = joinRel base name := by simpa using h1
          subst hq1
          rcases ER_head_file fs base name c rest hER with ⟨hg, hres⟩
          rw [Bool.and_eq_true] at hmc
          cases c with
          | none => simp at hmc
          | some cc =>
            have he : eligiblePath fs (joinRel base name) = true :=
              eligible_of_parts fs _ cc
                (by rw [isMarkdownFile_joinRel base name hg]; exact hmc.1) hres
            apply indexEntries_preserves_eligible fs rest base _ _ he
            rw [if_neg hh, if_pos hmc.1]
            exact indexFile_adds_eligible fs st _ he hinv.1
        · rw [if_neg hmc] at h1
          simp at h1
    · exact ihr base _ q' (ER_tail_file fs base name c rest hER) hinv1 h1
  | consDir name sub rest ihs ihr =>
    intro base st q' hER hinv hq
    unfold collectEntries at hq
    unfold indexEntries
    dsimp only
    have hinv1 : invariant (if strStartsWith name "." = true then st
        else indexEntries fs sub (joinRel base name) st) := by
      by_cases hh : strStartsWith name "." = true
      · rw [if_pos hh]
        exact hinv
      · rw [if_neg hh]
        exact invariant_indexEntries fs sub _ st hinv
    rcases List.mem_append.mp hq with h1 | h1
    · by_cases hh : strStartsWith name "." = true
      · rw [if_pos hh] at h1
        simp at h1
      · rw [if_neg hh] at h1
        rcases ER_head_dir fs base name sub rest hER with ⟨hg, hres, hwfs⟩
        have hERs := entriesResolved_of_wf fs _ sub hwfs hres
        have he := collect_eligible fs sub (joinRel base name) q' hERs h1
        apply indexEntries_preserves_eligible fs rest base _ _ he
        rw [if_neg hh]
        exact ihs (joinRel base name) st q' hERs hinv h1
    · exact ihr base _ q' (ER_tail_dir fs base name sub rest hER) hinv1 h1

/-- C8: Snapshot-load fallback — `buildIndex` first clears the state; when
the snapshot parses it is trusted fully (the result is exactly the snapshot's
index and paths, independent of the filesystem, with no traversal); when the
snapshot file is absent or unparseable, `buildIndex` falls back to the full
recursive traversal — skipping hidden names and non-markdown files and
indexing exactly the readable markdown documents (`collectEntries`) — and
persists the result; a corrupt snapshot yields the same well-defined rebuild
as a missing one, never a failure. -/
theorem c8_snapshot_load_fallback (fs : FsEntries) (st : ServerState)
    (hwf : wfEntries fs = true) :
    (∀ d pth, st.snapshotFile = some (.valid d pth) →
        buildIndex fs st = ⟨d, pth, st.snapshotFile⟩)
      ∧ (st.snapshotFile = none ∨ st.snapshotFile = some .corrupt →
          (buildIndex fs st).snapshotFile
              = some (.valid (buildIndex fs st).searchIndex (buildIndex fs st).indexedPaths)
            ∧ sameSet (buildIndex fs st).indexedPaths (collectEntries fs "") = true) := by
  constructor
  · intro d pth hs
    unfold buildIndex
    rw [hs]
  · intro hcase
    have hres0 : resolvePath fs "" = some (.dir fs) := rfl
    have hER := entriesResolved_of_wf fs "" fs hwf hres0
    have hcl : invariant (clearState st) := by
      refine ⟨rfl, ?_⟩
      rcases hcase with hs | hs <;> simp [clearState, hs, snapOk]
    have hbi : buildIndex fs st = saveIndex (indexEntries fs fs "" (clearState st)) := by
      unfold buildIndex
      rcases hcase with hs | hs <;> rw [hs]
    rw [hbi]
    refine ⟨rfl, ?_⟩
    rw [sameSet_iff]
    intro x
    constructor
    · intro hx
      rcases indexEntries_paths_upper fs fs "" (clearState st) x hER hx with h1 | h1
      · exact absurd h1 (by simp [clearState])
      · exact h1
    · intro hx
      exact indexEntries_adds_collected fs fs "" (clearState st) x hER hcl hx

/-- C8 witnessed: on the scenario filesystem, rebuilding over a corrupt
snapshot persists the rebuilt state and tracks exactly the eligible
documents; with a parseable snapshot the state is exactly the snapshot's. -/
theorem c8_snapshot_load_fallback_witness :
    ((buildIndex fsW stC8).snapshotFile
          = some (.valid (buildIndex fsW stC8).searchIndex (buildIndex fsW stC8).indexedPaths)
        ∧ sameSet (buildIndex fsW stC8).indexedPaths (collectEntries fsW "") = true)
      ∧ buildIndex fsW stC8v = ⟨⟨[]⟩, ["x.md"], stC8v.snapshotFile⟩ :=
  ⟨(c8_snapshot_load_fallback fsW stC8 (by decide)).2 (Or.inr (by decide)),
   (c8_snapshot_load_fallback fsW stC8v (by decide)).1 ⟨[]⟩ ["x.md"] (by decide)⟩

/-- C10: scope filtering is raw character-prefix matching — with scope `"b"`,
`search` returns `bar.md` (a top-level file) and `b2/x.md` (a sibling
directory), although `b` is a path component of neither. -/
theorem c10_raw_character_prefix_scope :
    "bar.md" ∈ (search stC10 "roadmap" (some "b") SEARCH_DEFAULT_LIMIT).map
        (fun r => r.path)
      ∧ "b2/x.md" ∈ (search stC10 "roadmap" (some "b") SEARCH_DEFAULT_LIMIT).map
        (fun r => r.path)
      ∧ strStartsWith "bar.md" "b/" = false ∧ "bar.md" ≠ "b"
      ∧ strStartsWith "b2/x.md" "b/" = false ∧ "b2/x.md" ≠ "b" := by
  decide

end Mdump
